import Mathlib

/-!
Verification of the leveldb write path: skip list, arena, block builder,
filter block, table builder and table cache, shallowly embedded from the
C++ sources.  Bytes are modelled as natural numbers (each produced byte is
< 256); machine-integer truncation is made explicit with `% 2 ^ 32` where
the code stores a `uint32`.
-/

namespace LevelDB

/-! ## Byte coding (util/coding).

The file `util/coding.cc` is not part of the provided sources.
Modelled from the spec: `PutVarint32`/`PutVarint64` write a value in
base-128 little-endian groups with a continuation bit ("varint32"), and
`PutFixed32` writes a 32-bit value as 4 little-endian bytes. -/

/-- Modelled from the spec: varint (LEB128) encoding used by
`PutVarint32` / `PutVarint64` of the missing `util/coding.cc`.  The
recursion is by fuel (the value strictly shrinks under division by 128, so
`n + 1` steps always suffice); `putVarint_eq` below recovers the natural
unfolding. -/
def putVarintAux : Nat → Nat → List Nat
  | _, 0 => []
  | n, fuel + 1 =>
    if n < 128 then [n]
    else (n % 128 + 128) :: putVarintAux (n / 128) fuel

def putVarint (n : Nat) : List Nat := putVarintAux n (n + 1)

/-- Decoder for `putVarint`, following the documented varint format. -/
def decodeVarint : List Nat → Option (Nat × List Nat)
  | [] => none
  | b :: rest =>
    if b < 128 then some (b, rest)
    else
      match decodeVarint rest with
      | some (v, r) => some (b % 128 + 128 * v, r)
      | none => none

/-- Modelled from the spec: `PutFixed32` of the missing `util/coding.cc`
writes the low 32 bits of a value as 4 little-endian bytes. -/
def putFixed32 (n : Nat) : List Nat :=
  [n % 256, n / 256 % 256, n / 2 ^ 16 % 256, n / 2 ^ 24 % 256]

/-- Byte fetch from a byte string; positions outside the string read 0
(the embedded readers are only applied in range). -/
def byteAt (l : List Nat) (i : Nat) : Nat := (l.get? i).getD 0

/-- Modelled from the spec: `DecodeFixed32` reads 4 little-endian bytes at
position `i`. -/
def decFixed32At (l : List Nat) (i : Nat) : Nat :=
  byteAt l i + 256 * byteAt l (i + 1) + 2 ^ 16 * byteAt l (i + 2) +
    2 ^ 24 * byteAt l (i + 3)

/-! ## Arena (util/arena.cc).

Memory addresses are modelled as pairs `(block index, offset inside the
block)`; `blocks` records the size of every region ever allocated, in
allocation order (the `blocks_` vector of pointers).  `cur` / `curOffset` /
`remaining` model `alloc_ptr_` and `alloc_bytes_remaining_`. -/

/-- Arena state: region sizes, the current region and its cursor, and the
relaxed memory-usage counter.  `sizeof(char*)` is taken to be 8. -/
structure Arena where
  blocks : List Nat
  cur : Option Nat
  curOffset : Nat
  remaining : Nat
  memUsage : Nat
  deriving Repr, DecidableEq

/-- `kBlockSize` of util/arena.cc. -/
def kArenaBlockSize : Nat := 4096

/-- A fresh arena: no regions, null `alloc_ptr_`, zero remaining bytes. -/
def Arena.init : Arena :=
  { blocks := [], cur := none, curOffset := 0, remaining := 0, memUsage := 0 }

/-- `Arena::AllocateNewBlock`: allocates a region of `blockBytes` bytes,
records it in `blocks_` and bumps the usage counter by
`block_bytes + sizeof(char*)`.  Returns the index of the new region. -/
def Arena.allocateNewBlock (a : Arena) (blockBytes : Nat) : Nat × Arena :=
  (a.blocks.length,
   { a with blocks := a.blocks ++ [blockBytes],
            memUsage := a.memUsage + blockBytes + 8 })

/-- `Arena::AllocateFallback`: a request larger than a quarter block gets a
dedicated region without touching the bump cursor; otherwise a fresh
default region becomes current and serves the request from its start. -/
def Arena.allocateFallback (a : Arena) (bytes : Nat) : (Nat × Nat) × Arena :=
  if bytes > kArenaBlockSize / 4 then
    let (i, a1) := a.allocateNewBlock bytes
    ((i, 0), a1)
  else
    let (i, a1) := a.allocateNewBlock kArenaBlockSize
    let a2 := { a1 with cur := some i, curOffset := bytes,
                        remaining := kArenaBlockSize - bytes }
    ((i, 0), a2)

/-- Modelled from the spec: `Arena::allocate(n)` (declared in the missing
`util/arena.h`) bumps the cursor when the request fits the current region
and otherwise delegates to `AllocateFallback`. -/
def Arena.allocate (a : Arena) (bytes : Nat) : (Nat × Nat) × Arena :=
  if bytes ≤ a.remaining then
    ((a.cur.getD 0, a.curOffset),
     { a with curOffset := a.curOffset + bytes, remaining := a.remaining - bytes })
  else
    a.allocateFallback bytes

/-! ## BlockBuilder (table/block_builder.cc).

Keys and values are byte strings (`List Nat`).  The builder state carries
the fields of the C++ class; `restartInterval` stands for the
`options_->block_restart_interval` the builder reads. -/

/-- BlockBuilder state (table/block_builder.h fields). -/
structure BlockB where
  buffer : List Nat
  restarts : List Nat
  counter : Nat
  finished : Bool
  lastKey : List Nat
  restartInterval : Nat
  deriving Repr, DecidableEq

/-- Constructor / `Reset()` result: empty buffer, one restart at offset 0. -/
def BlockB.init (interval : Nat) : BlockB :=
  { buffer := [], restarts := [0], counter := 0, finished := false,
    lastKey := [], restartInterval := interval }

/-- `BlockBuilder::Reset`. -/
def BlockB.reset (b : BlockB) : BlockB := BlockB.init b.restartInterval

/-- Length of the longest common byte run of two keys (the `while` loop
computing `shared` in `BlockBuilder::Add`). -/
def commonLen : List Nat → List Nat → Nat
  | a :: as, b :: bs => if a = b then commonLen as bs + 1 else 0
  | _, _ => 0

/-- `BlockBuilder::Add(key, value)`. -/
def BlockB.add (b : BlockB) (key value : List Nat) : BlockB :=
  let shared := if b.counter < b.restartInterval then commonLen b.lastKey key else 0
  let restarts :=
    if b.counter < b.restartInterval then b.restarts
    else b.restarts ++ [b.buffer.length]
  let counter := if b.counter < b.restartInterval then b.counter else 0
  let nonShared := key.length - shared
  { b with
    buffer := b.buffer ++ putVarint shared ++ putVarint nonShared ++
      putVarint value.length ++ key.drop shared ++ value,
    restarts := restarts,
    lastKey := b.lastKey.take shared ++ key.drop shared,
    counter := counter + 1 }

/-- `BlockBuilder::CurrentSizeEstimate`. -/
def BlockB.sizeEstimate (b : BlockB) : Nat :=
  b.buffer.length + b.restarts.length * 4 + 4

/-- The bytes `BlockBuilder::Finish` returns: the buffer followed by each
restart offset as fixed32 and the restart count as fixed32. -/
def BlockB.finishBytes (b : BlockB) : List Nat :=
  b.buffer ++ (b.restarts.map putFixed32).flatten ++ putFixed32 b.restarts.length

/-- `BlockBuilder::Finish` (the buffer now holds the returned bytes and the
finished flag is set). -/
def BlockB.finish (b : BlockB) : BlockB :=
  { b with buffer := b.finishBytes, finished := true }

/-- `empty()`: no entries added since the last reset. -/
def BlockB.isEmpty (b : BlockB) : Bool := b.buffer.isEmpty

/-- Run a list of `Add` calls. -/
def BlockB.addAll (b : BlockB) (ps : List (List Nat × List Nat)) : BlockB :=
  ps.foldl (fun acc p => acc.add p.1 p.2) b

/-! Decoding a block according to the documented entry format
(`varint32 shared / unshared / value_length`, `key_delta`, `value`) and the
restart-array trailer.  `decEntries` parses a sequence of entries from a
byte region, reconstructing each key from the previous one. -/

/-- Parse prefix-compressed entries from a byte region until it is
exhausted; `prev` is the previously reconstructed key. -/
def decEntries (fuel : Nat) (bytes : List Nat) (prev : List Nat) :
    Option (List (List Nat × List Nat)) :=
  match fuel, bytes with
  | _, [] => some []
  | 0, _ :: _ => none
  | fuel + 1, b :: bs =>
    match decodeVarint (b :: bs) with
    | none => none
    | some (shared, r1) =>
      match decodeVarint r1 with
      | none => none
      | some (nonShared, r2) =>
        match decodeVarint r2 with
        | none => none
        | some (vlen, r3) =>
          if shared ≤ prev.length ∧ nonShared + vlen ≤ r3.length then
            let key := prev.take shared ++ r3.take nonShared
            let value := (r3.drop nonShared).take vlen
            match decEntries fuel (r3.drop (nonShared + vlen)) key with
            | some ps => some ((key, value) :: ps)
            | none => none
          else none

/-- Decode a finished block: read the restart count from the trailing
fixed32, strip the restart array, and parse the entry region. -/
def decodeBlock (bytes : List Nat) : Option (List (List Nat × List Nat)) :=
  if bytes.length < 4 then none
  else
    let numRestarts := decFixed32At bytes (bytes.length - 4)
    if bytes.length < 4 * (numRestarts + 1) then none
    else
      let dataLen := bytes.length - 4 * (numRestarts + 1)
      decEntries dataLen (bytes.take dataLen) []

/-- Ghost encoder mirroring the byte output of a run of
`BlockBuilder::Add` calls from a given counter and previous key. -/
def encodeFrom (interval : Nat) (counter : Nat) (prev : List Nat) :
    List (List Nat × List Nat) → List Nat
  | [] => []
  | (k, v) :: rest =>
    let shared := if counter < interval then commonLen prev k else 0
    let counter1 := if counter < interval then counter + 1 else 1
    putVarint shared ++ putVarint (k.length - shared) ++ putVarint v.length ++
      k.drop shared ++ v ++ encodeFrom interval counter1 k rest

/-- Lexicographic strict order on byte strings (the default bytewise
comparator). -/
def lexLt (a b : List Nat) : Prop := List.Lex (· < ·) a b

/-- Strictly ascending keys, as required by `BlockBuilder::Add`. -/
def StrictAscending (ps : List (List Nat × List Nat)) : Prop :=
  List.Chain' (fun p q => lexLt p.1 q.1) ps

/-! ## FilterBlockBuilder and FilterBlockReader (table/filter_block.cc).

The filter policy is external; its `CreateFilter` is a parameter
`pol : List (List Nat) → List Nat` giving the bytes it appends for a key
set, and its `KeyMayMatch` is a parameter of the reader. -/

/-- `kFilterBaseLg` / `kFilterBase` of table/filter_block.cc. -/
def kFilterBaseLg : Nat := 11

def kFilterBase : Nat := 2 ^ kFilterBaseLg

/-- FilterBlockBuilder state: flattened key bytes, per-key start offsets,
the output buffer and the per-filter offsets (`tmp_keys_` is a local
scratch of `GenerateFilter` and is not state). -/
structure FB where
  keys : List Nat
  starts : List Nat
  result : List Nat
  filterOffsets : List Nat
  deriving Repr, DecidableEq

def FB.init : FB := { keys := [], starts := [], result := [], filterOffsets := [] }

/-- `FilterBlockBuilder::AddKey`. -/
def FB.addKey (f : FB) (key : List Nat) : FB :=
  { f with starts := f.starts ++ [f.keys.length], keys := f.keys ++ key }

/-- The key list `GenerateFilter` reconstructs into `tmp_keys_` from the
flattened `keys_` buffer and the `start_` offsets (with `keys_.size()`
appended to simplify length computation). -/
def FB.keyList (f : FB) : List (List Nat) :=
  let starts1 := f.starts ++ [f.keys.length]
  (List.range f.starts.length).map (fun i =>
    ((f.keys.drop (starts1.getD i 0)).take (starts1.getD (i + 1) 0 - starts1.getD i 0)))

/-- `FilterBlockBuilder::GenerateFilter`. -/
def FB.generateFilter (pol : List (List Nat) → List Nat) (f : FB) : FB :=
  if f.starts.length = 0 then
    { f with filterOffsets := f.filterOffsets ++ [f.result.length] }
  else
    { keys := [], starts := [],
      result := f.result ++ pol f.keyList,
      filterOffsets := f.filterOffsets ++ [f.result.length] }

/-- The `while (filter_index > filter_offsets_.size())` loop of
`StartBlock`; each `GenerateFilter` call appends exactly one offset, so
`fuel = filterIndex` bounds the iteration count. -/
def FB.startBlockAux (pol : List (List Nat) → List Nat) (f : FB)
    (filterIndex : Nat) : Nat → FB
  | 0 => f
  | fuel + 1 =>
    if filterIndex > f.filterOffsets.length then
      FB.startBlockAux pol (f.generateFilter pol) filterIndex fuel
    else f

/-- `FilterBlockBuilder::StartBlock`. -/
def FB.startBlock (pol : List (List Nat) → List Nat) (f : FB)
    (blockOffset : Nat) : FB :=
  FB.startBlockAux pol f (blockOffset / kFilterBase) (blockOffset / kFilterBase)

/-- The builder state after the conditional trailing `GenerateFilter` in
`FilterBlockBuilder::Finish`. -/
def FB.finishState (pol : List (List Nat) → List Nat) (f : FB) : FB :=
  if f.starts.isEmpty then f else f.generateFilter pol

/-- The bytes `FilterBlockBuilder::Finish` returns: the filters, the
offset array, the offset-array start and the encoding parameter. -/
def FB.finishBytes (pol : List (List Nat) → List Nat) (f : FB) : List Nat :=
  let f1 := f.finishState pol
  f1.result ++ (f1.filterOffsets.map putFixed32).flatten ++
    putFixed32 f1.result.length ++ [kFilterBaseLg]

/-- One call in an interleaved `AddKey` / `StartBlock` sequence. -/
inductive FEv
  | addKey (key : List Nat)
  | startBlock (off : Nat)
  deriving Repr, DecidableEq

/-- Run an interleaved sequence of `AddKey` / `StartBlock` calls. -/
def FB.run (pol : List (List Nat) → List Nat) (evs : List FEv) : FB :=
  evs.foldl
    (fun f e =>
      match e with
      | FEv.addKey k => f.addKey k
      | FEv.startBlock off => f.startBlock pol off) FB.init

/-- The offsets named by a sequence's `StartBlock` calls. -/
def FEv.offs (evs : List FEv) : List Nat :=
  evs.filterMap (fun e => match e with
    | FEv.startBlock off => some off
    | _ => none)

/-- Monotonically non-decreasing `StartBlock` offsets. -/
def MonoOffs (evs : List FEv) : Prop := List.Chain' (· ≤ ·) (FEv.offs evs)

/-- Largest `off / kFilterBase` over the sequence's `StartBlock` calls
(0 when there is none). -/
def maxFilterIndex (evs : List FEv) : Nat :=
  (FEv.offs evs).foldl (fun m off => max m (off / kFilterBase)) 0

/-- FilterBlockReader fields: the block bytes (`data_`), the position of
the offset array (`offset_ - data_`), the entry count and `base_lg_`.
A reader whose constructor bailed out keeps `num = 0`, which makes
`KeyMayMatch` return true without touching the data. -/
structure FR where
  data : List Nat
  offsetPos : Nat
  num : Nat
  baseLg : Nat
  deriving Repr, DecidableEq

/-- `FilterBlockReader::FilterBlockReader(policy, contents)`. -/
def FR.init (contents : List Nat) : FR :=
  let n := contents.length
  if n < 5 then { data := contents, offsetPos := 0, num := 0, baseLg := 0 }
  else
    let baseLg := byteAt contents (n - 1)
    let lastWord := decFixed32At contents (n - 5)
    if lastWord > n - 5 then
      { data := contents, offsetPos := 0, num := 0, baseLg := baseLg }
    else
      { data := contents, offsetPos := lastWord,
        num := (n - 5 - lastWord) / 4, baseLg := baseLg }

/-- Offset-array entry `index` of a reader (`DecodeFixed32(offset_ + index*4)`). -/
def FR.offAt (r : FR) (index : Nat) : Nat :=
  decFixed32At r.data (r.offsetPos + index * 4)

/-- `FilterBlockReader::KeyMayMatch(block_offset, key)`; `pol` is the
policy's `KeyMayMatch(key, filter)`. -/
def FR.keyMayMatch (pol : List Nat → List Nat → Bool) (r : FR)
    (blockOffset : Nat) (key : List Nat) : Bool :=
  let index := blockOffset >>> r.baseLg
  if index < r.num then
    let start := r.offAt index
    let limit := r.offAt (index + 1)
    if start ≤ limit ∧ limit ≤ r.offsetPos then
      pol key ((r.data.drop start).take (limit - start))
    else if start = limit then false
    else true
  else true

/-! ## TableBuilder (table/table_builder.cc).

`Status` is `Option Nat`: `none` is OK, `some e` an error code.  The
writable file is modelled by its written bytes plus a script of statuses
its operations will return (an empty script means every operation
succeeds).  CRC32C, Snappy, the comparator's separator functions and the
filter policy live outside the provided sources; they are abstract
parameters gathered in `Ext`, and all theorems quantify over them. -/

/-- Block trailer size: 1-byte type + 32-bit crc. -/
def kBlockTrailerSize : Nat := 5

/-- Compression type bytes (`kNoCompression`, `kSnappyCompression`). -/
def kNoCompression : Nat := 0

def kSnappyCompression : Nat := 1

/-- A writable file: the bytes appended so far and a script of statuses
for its future operations (head first; an exhausted script keeps
succeeding).  A failed operation writes nothing. -/
structure MFile where
  written : List Nat
  script : List (Option Nat)
  deriving Repr, DecidableEq

/-- `WritableFile::Append`. -/
def MFile.append (f : MFile) (data : List Nat) : Option Nat × MFile :=
  match f.script with
  | [] => (none, { f with written := f.written ++ data })
  | r :: rest =>
    (r, { written := if r = none then f.written ++ data else f.written,
          script := rest })

/-- `WritableFile::Flush`. -/
def MFile.flushOp (f : MFile) : Option Nat × MFile :=
  match f.script with
  | [] => (none, f)
  | r :: rest => (r, { f with script := rest })

/-- External collaborators of the table builder: crc32c (`Value`,
`Extend`, `Mask`), `port::Snappy_Compress` (`none` when Snappy is
unsupported), the comparator's `FindShortestSeparator` and
`FindShortSuccessor`, and the filter policy (`CreateFilter` bytes and the
`"filter." + Name()` meta-index key). -/
structure Ext where
  crcVal : List Nat → Nat
  crcExt : Nat → List Nat → Nat
  crcMask : Nat → Nat
  snappy : List Nat → Option (List Nat)
  sep : List Nat → List Nat → List Nat
  succ : List Nat → List Nat
  createFilter : List (List Nat) → List Nat
  filterKey : List Nat

/-- The options the table builder reads. -/
structure Opts where
  blockSize : Nat
  restartInterval : Nat
  compression : Nat
  hasFilter : Bool
  deriving Repr, DecidableEq

/-- TableBuilder::Rep. The index block always uses restart interval 1
(`index_block_options.block_restart_interval = 1`). -/
structure TB where
  opts : Opts
  file : MFile
  offset : Nat
  status : Option Nat
  dataBlock : BlockB
  indexBlock : BlockB
  lastKey : List Nat
  numEntries : Nat
  closed : Bool
  filterB : Option FB
  pendingIndexEntry : Bool
  pendingHandle : Nat × Nat
  compressedOutput : List Nat
  deriving DecidableEq

/-- `BlockHandle::EncodeTo`: offset and size as two varints. -/
def encodeHandle (h : Nat × Nat) : List Nat := putVarint h.1 ++ putVarint h.2

/-- The 5-byte block trailer: type byte and masked crc of
`contents || type`. -/
def trailerOf (ext : Ext) (contents : List Nat) (ctype : Nat) : List Nat :=
  ctype :: putFixed32 (ext.crcMask (ext.crcExt (ext.crcVal contents) [ctype]))

/-- Modelled from the spec: `Footer::EncodeTo` (the missing
`table/format.cc`) writes both handles, zero-pads to 40 bytes and appends
the magic number `0xdb4775248b80fb57` little-endian. -/
def footerBytes (metaindexHandle indexHandle : Nat × Nat) : List Nat :=
  let handles := encodeHandle metaindexHandle ++ encodeHandle indexHandle
  handles ++ List.replicate (40 - handles.length) 0 ++
    putFixed32 0x8b80fb57 ++ putFixed32 0xdb477524

/-- `TableBuilder` constructor: fresh rep over the given file, calling
`StartBlock(0)` on the filter builder when a policy is configured. -/
def TB.init (ext : Ext) (opts : Opts) (file : MFile) : TB :=
  { opts := opts, file := file, offset := 0, status := none,
    dataBlock := BlockB.init opts.restartInterval,
    indexBlock := BlockB.init 1,
    lastKey := [], numEntries := 0, closed := false,
    filterB := if opts.hasFilter
      then some (FB.startBlock ext.createFilter FB.init 0) else none,
    pendingIndexEntry := false, pendingHandle := (0, 0),
    compressedOutput := [] }

/-- `ok()`. -/
def TB.ok (t : TB) : Bool := t.status = none

/-- `TableBuilder::WriteRawBlock`: record the handle, append the contents
and the trailer, and advance the offset only when both appends succeed. -/
def TB.writeRawBlock (ext : Ext) (t : TB) (contents : List Nat)
    (ctype : Nat) : TB × (Nat × Nat) :=
  let handle := (t.offset, contents.length)
  let (s1, f1) := t.file.append contents
  let t1 := { t with file := f1, status := s1 }
  if s1 = none then
    let (s2, f2) := f1.append (trailerOf ext contents ctype)
    let t2 := { t1 with file := f2, status := s2 }
    if s2 = none then
      ({ t2 with offset := t2.offset + contents.length + kBlockTrailerSize },
       handle)
    else (t2, handle)
  else (t1, handle)

/-- The compression switch of `TableBuilder::WriteBlock`: the contents and
type byte actually stored for a raw block. -/
def compressSelect (ext : Ext) (compression : Nat) (raw : List Nat) :
    List Nat × Nat :=
  if compression = kSnappyCompression then
    match ext.snappy raw with
    | some compressed =>
      if compressed.length < raw.length - raw.length / 8 then
        (compressed, kSnappyCompression)
      else (raw, kNoCompression)
    | none => (raw, kNoCompression)
  else (raw, kNoCompression)

/-- `TableBuilder::WriteBlock` on a block builder: finish the block, pick
the stored form, write it raw, clear the scratch and reset the builder. -/
def TB.writeBlock (ext : Ext) (t : TB) (b : BlockB) :
    TB × BlockB × (Nat × Nat) :=
  let raw := b.finishBytes
  let (contents, ctype) := compressSelect ext t.opts.compression raw
  let (t1, handle) := t.writeRawBlock ext contents ctype
  ({ t1 with compressedOutput := [] }, b.finish.reset, handle)

/-- `TableBuilder::Flush`. -/
def TB.flush (ext : Ext) (t : TB) : TB :=
  if t.status ≠ none then t
  else if t.dataBlock.isEmpty then t
  else
    let (t1, db, handle) := t.writeBlock ext t.dataBlock
    let t2 := { t1 with dataBlock := db, pendingHandle := handle }
    let t3 :=
      if t2.status = none then
        let (s, f) := t2.file.flushOp
        { t2 with pendingIndexEntry := true, status := s, file := f }
      else t2
    match t3.filterB with
    | some fb =>
      { t3 with filterB := some (fb.startBlock ext.createFilter t3.offset) }
    | none => t3

/-- `TableBuilder::Add`. -/
def TB.add (ext : Ext) (t : TB) (key value : List Nat) : TB :=
  if t.status ≠ none then t
  else
    let t1 :=
      if t.pendingIndexEntry then
        let shortKey := ext.sep t.lastKey key
        { t with lastKey := shortKey,
                 indexBlock := t.indexBlock.add shortKey
                   (encodeHandle t.pendingHandle),
                 pendingIndexEntry := false }
      else t
    let t2 :=
      match t1.filterB with
      | some fb => { t1 with filterB := some (fb.addKey key) }
      | none => t1
    let t3 := { t2 with lastKey := key, numEntries := t2.numEntries + 1,
                        dataBlock := t2.dataBlock.add key value }
    if t3.dataBlock.sizeEstimate ≥ t3.opts.blockSize then t3.flush ext else t3

/-- The filter-block write at the start of `TableBuilder::Finish`
(`if (ok() && r->filter_block != nullptr) WriteRawBlock(...)`). -/
def TB.finishFilterStep (ext : Ext) (t : TB) : TB × (Nat × Nat) :=
  match t.status, t.filterB with
  | none, some fb =>
    t.writeRawBlock ext (fb.finishBytes ext.createFilter) kNoCompression
  | _, _ => (t, (0, 0))

/-- The meta-index block write of `TableBuilder::Finish`: a fresh block
holding the single `"filter.<name>" -> filter handle` entry when a filter
policy is configured. -/
def TB.finishMetaStep (ext : Ext) (t : TB) (filterHandle : Nat × Nat) :
    TB × (Nat × Nat) :=
  if t.status = none then
    let metaIndexBlock := BlockB.init t.opts.restartInterval
    let metaIndexBlock :=
      if t.filterB.isSome then
        metaIndexBlock.add ext.filterKey (encodeHandle filterHandle)
      else metaIndexBlock
    let (t1, _, h) := t.writeBlock ext metaIndexBlock
    (t1, h)
  else (t, (0, 0))

/-- The index-block write of `TableBuilder::Finish`: emit the pending
entry under the shortened successor of the last key, then write the
block. -/
def TB.finishIndexStep (ext : Ext) (t : TB) : TB × (Nat × Nat) :=
  if t.status = none then
    let t5 :=
      if t.pendingIndexEntry then
        let shortKey := ext.succ t.lastKey
        { t with lastKey := shortKey,
                 indexBlock := t.indexBlock.add shortKey
                   (encodeHandle t.pendingHandle),
                 pendingIndexEntry := false }
      else t
    let (t1, ib, h) := t5.writeBlock ext t5.indexBlock
    ({ t1 with indexBlock := ib }, h)
  else (t, (0, 0))

/-- The footer write at the end of `TableBuilder::Finish`. -/
def TB.finishFooterStep (t : TB) (metaindexHandle indexHandle : Nat × Nat) :
    TB :=
  if t.status = none then
    let fbytes := footerBytes metaindexHandle indexHandle
    let (s, f) := t.file.append fbytes
    let t7 := { t with status := s, file := f }
    if t7.status = none then
      { t7 with offset := t7.offset + fbytes.length }
    else t7
  else t

/-- `TableBuilder::Finish`: flush the last data block, close the builder,
then write the filter block, the meta-index block, the index block and
the footer, each step guarded by the sticky status. -/
def TB.finish (ext : Ext) (t : TB) : TB :=
  let t2 := { t.flush ext with closed := true }
  let (t3, filterHandle) := t2.finishFilterStep ext
  let (t4, metaindexHandle) := t3.finishMetaStep ext filterHandle
  let (t6, indexHandle) := t4.finishIndexStep ext
  t6.finishFooterStep metaindexHandle indexHandle

/-- Table-builder states reachable from a fresh builder by `Add`, `Flush`
and `Finish` calls. -/
inductive ReachTB (ext : Ext) : TB → Prop
  | init (opts : Opts) (file : MFile) : ReachTB ext (TB.init ext opts file)
  | add (t : TB) (key value : List Nat) :
      ReachTB ext t → ReachTB ext (t.add ext key value)
  | flush (t : TB) : ReachTB ext t → ReachTB ext (t.flush ext)
  | finish (t : TB) : ReachTB ext t → ReachTB ext (t.finish ext)

/-! ## TableCache::FindTable (db/table_cache.cc).

The environment, `Table::Open` and the LRU cache are external
collaborators: the two opens are `Except` outcomes for this file number
(`.ldb` name first, `.sst` fallback), parsing is a function on the opened
file, and the cache is an association list keyed by the file number. -/

/-- `Cache::Lookup` on the association-list model of the LRU cache. -/
def cacheLookup {F T : Type} (cache : List (Nat × F × T)) (fn : Nat) :
    Option (F × T) :=
  (cache.find? (fun e => e.1 == fn)).map (·.2)

/-- The open step of `TableCache::FindTable`: try the `.ldb` name, and on
failure the `.sst` name; a successful fallback resets the status to OK,
while a double failure keeps the first error. -/
def openTableFile {F : Type} (openLdb openSst : Except Nat F) :
    Option Nat × Option F :=
  match openLdb with
  | Except.ok f => (none, some f)
  | Except.error e =>
    match openSst with
    | Except.ok f => (none, some f)
    | Except.error _ => (some e, none)

/-- `TableCache::FindTable`: returns the status, the updated cache and the
found entry.  On a miss, the opened file is parsed with `tableOpen`
(`Table::Open`), and an entry is inserted only when everything succeeded. -/
def findTable {F T : Type} (openLdb openSst : Except Nat F)
    (tableOpen : F → Except Nat T) (cache : List (Nat × F × T)) (fn : Nat) :
    Option Nat × List (Nat × F × T) × Option (F × T) :=
  match cacheLookup cache fn with
  | some e => (none, cache, some e)
  | none =>
    match openTableFile openLdb openSst with
    | (none, some f) =>
      match tableOpen f with
      | Except.ok tbl => (none, (fn, f, tbl) :: cache, some (f, tbl))
      | Except.error e2 => (some e2, cache, none)
    | (s, _) => (s, cache, none)

/-! ## SkipList (db/skiplist.h).

Nodes live in an arena; the embedding stores them in a list, a node's
`next_` array holds `Option Nat` node indices (`none` is `nullptr`), and
the head sentinel's `kMaxHeight` links are kept in `headNext`.  The
pseudo-random source `util/random.h` is not part of the provided sources;
modelled from the spec, it is an arbitrary stream `rv : Nat → Nat` of u32
draws, with the list keeping its position `rpos` in the stream — every
theorem quantifies over the stream.  Keys come with a total order
(`LinearOrder`), matching the three-way comparator. -/

/-- `kMaxHeight` of db/skiplist.h. -/
def kMaxHeight : Nat := 12

/-- A skip-list node: an immutable key and a `next_` array whose length is
the node's height. -/
structure SLNode (α : Type) where
  key : α
  next : List (Option Nat)

/-- Skip-list state: arena-resident nodes, head links, current maximum
height, and the random stream position. -/
structure SL (α : Type) where
  nodes : List (SLNode α)
  headNext : List (Option Nat)
  maxHeight : Nat
  rpos : Nat

/-- A traversal position: the head sentinel or a node index. -/
inductive Ref
  | hd
  | nd (i : Nat)
  deriving Repr, DecidableEq

/-- A fresh skip list: head of height `kMaxHeight` with null links,
`max_height_ = 1`. -/
def SL.empty (α : Type) : SL α :=
  { nodes := [], headNext := List.replicate kMaxHeight none,
    maxHeight := 1, rpos := 0 }

/-- Key of node `i` (arbitrary default outside the arena; well-formed
lists never read it). -/
def SL.keyI {α : Type} [Inhabited α] (s : SL α) (i : Nat) : α :=
  ((s.nodes.get? i).map SLNode.key).getD default

/-- Height of node `i` (its `next_` length). -/
def SL.heightAt {α : Type} (s : SL α) (i : Nat) : Nat :=
  ((s.nodes.get? i).map (fun n => n.next.length)).getD 0

/-- `Next(n)` of a position: the forward link at level `L`. -/
def SL.nextOf {α : Type} (s : SL α) (r : Ref) (L : Nat) : Option Nat :=
  match r with
  | Ref.hd => (s.headNext.get? L).getD none
  | Ref.nd i =>
    ((s.nodes.get? i).map (fun n => (n.next.get? L).getD none)).getD none

/-- `SetNext(n, x)` at a position (out-of-range writes leave the state
unchanged; well-formed use stays in range). -/
def SL.setNext {α : Type} (s : SL α) (r : Ref) (L : Nat) (v : Option Nat) :
    SL α :=
  match r with
  | Ref.hd => { s with headNext := s.headNext.set L v }
  | Ref.nd i =>
    { s with nodes :=
        s.nodes.modify (fun n => { n with next := n.next.set L v }) i }

/-- `KeyIsAfterNode(key, n)`: true iff `n` is non-null and `n->key < key`. -/
def SL.keyIsAfterNode {α : Type} [LinearOrder α] [Inhabited α] (s : SL α)
    (key : α) (n : Option Nat) : Bool :=
  match n with
  | none => false
  | some j => decide (s.keyI j < key)

/-- The loop of `FindGreaterOrEqual`, with explicit fuel (the wrapper
passes enough fuel for any well-formed list).  `prev` records the
predecessor at each level as the descent passes it. -/
def SL.fgeAux {α : Type} [LinearOrder α] [Inhabited α] (s : SL α) (key : α) :
    Ref → Nat → List Ref → Nat → Option Nat × List Ref
  | _, _, prev, 0 => (none, prev)
  | x, level, prev, fuel + 1 =>
    let next := s.nextOf x level
    if s.keyIsAfterNode key next then
      SL.fgeAux s key (Ref.nd (next.getD 0)) level prev fuel
    else
      let prev1 := prev.set level x
      if level = 0 then (next, prev1)
      else SL.fgeAux s key x (level - 1) prev1 fuel

/-- `FindGreaterOrEqual(key, prev)`: start at the head on the top level. -/
def SL.fge {α : Type} [LinearOrder α] [Inhabited α] (s : SL α) (key : α) :
    Option Nat × List Ref :=
  SL.fgeAux s key Ref.hd (s.maxHeight - 1) (List.replicate kMaxHeight Ref.hd)
    (s.nodes.length + kMaxHeight + 1)

/-- `SkipList::Contains`. -/
def SL.contains {α : Type} [LinearOrder α] [Inhabited α] (s : SL α)
    (key : α) : Bool :=
  match (s.fge key).1 with
  | some j => decide (s.keyI j = key)
  | none => false

/-- `RandomHeight()`: increase the height with probability 1/4 per draw,
capped at `kMaxHeight`.  Returns the height and the new stream position. -/
def randomHeightAux (rv : Nat → Nat) : Nat → Nat → Nat → Nat × Nat
  | pos, height, 0 => (height, pos)
  | pos, height, fuel + 1 =>
    if height < kMaxHeight then
      if rv pos % 4 = 0 then randomHeightAux rv (pos + 1) (height + 1) fuel
      else (height, pos + 1)
    else (height, pos)

def randomHeight (rv : Nat → Nat) (pos : Nat) : Nat × Nat :=
  randomHeightAux rv pos 1 kMaxHeight

/-- The loop `for (int i = GetMaxHeight(); i < height; i++) prev[i] = head_`. -/
def fillPrevHd (prev : List Ref) (start stop : Nat) : List Ref :=
  (List.range' start (stop - start)).foldl (fun p i => p.set i Ref.hd) prev

/-- One iteration of the link-in loop of `Insert`: the new node's level-`i`
link is set to the predecessor's current link, then the predecessor's link
is published to the new node. -/
def SL.linkStep {α : Type} (s : SL α) (prev : List Ref) (newIdx i : Nat) :
    SL α :=
  let p := prev.getD i Ref.hd
  let s1 := s.setNext (Ref.nd newIdx) i (s.nextOf p i)
  s1.setNext p i (some newIdx)

/-- `SkipList::Insert(key)`. -/
def SL.insert {α : Type} [LinearOrder α] [Inhabited α] (rv : Nat → Nat)
    (s : SL α) (key : α) : SL α :=
  let prev := (s.fge key).2
  let hr := randomHeight rv s.rpos
  let height := hr.1
  let prev1 := if height > s.maxHeight then fillPrevHd prev s.maxHeight height
    else prev
  let s1 := if height > s.maxHeight then { s with maxHeight := height } else s
  let newIdx := s1.nodes.length
  let s2 := { s1 with
    nodes := s1.nodes ++ [{ key := key, next := List.replicate height none }],
    rpos := hr.2 }
  (List.range height).foldl (fun acc i => acc.linkStep prev1 newIdx i) s2

/-- Insert a list of keys into a fresh skip list. -/
def SL.build {α : Type} [LinearOrder α] [Inhabited α] (rv : Nat → Nat)
    (ks : List α) : SL α :=
  ks.foldl (fun s k => s.insert rv k) (SL.empty α)

/-- The link-in loop of `Insert` run for the first `t` levels. -/
def SL.linkAll {α : Type} (s2 : SL α) (prev1 : List Ref) (nn t : Nat) :
    SL α :=
  (List.range t).foldl (fun acc i => acc.linkStep prev1 nn i) s2

/-- `lo < a`, where `lo = none` is the head sentinel (before every key). -/
def gtLo {α : Type} [LinearOrder α] : Option α → α → Prop
  | none, _ => True
  | some b, a => b < a

/-- The level-0 link `r` out of a position whose key is `lo` is the
key-order successor: `none` iff no node's key lies above `lo`, otherwise
a node with the least key above `lo`. -/
def SL.zeroSucc {α : Type} [LinearOrder α] [Inhabited α] (s : SL α)
    (lo : Option α) (r : Option Nat) : Prop :=
  (r = none ∧ ∀ m, m < s.nodes.length → ¬ gtLo lo (s.keyI m)) ∨
  (∃ j, r = some j ∧ j < s.nodes.length ∧ gtLo lo (s.keyI j) ∧
    ∀ m, m < s.nodes.length → gtLo lo (s.keyI m) → s.keyI j ≤ s.keyI m)

/-- Whether node `m` is strictly ahead of traversal position `x` in key
order (everything is ahead of the head sentinel). -/
def SL.aheadB {α : Type} [LinearOrder α] [Inhabited α] (s : SL α) (x : Ref)
    (m : Nat) : Bool :=
  match x with
  | Ref.hd => true
  | Ref.nd p => decide (s.keyI p < s.keyI m)

/-- The set of nodes strictly ahead of a traversal position, bounding the
rightward moves left to `FindGreaterOrEqual`. -/
def SL.ahead {α : Type} [LinearOrder α] [Inhabited α] (s : SL α) (x : Ref) :
    Finset Nat :=
  (Finset.range s.nodes.length).filter (fun m => s.aheadB x m = true)

/-- What `FindGreaterOrEqual` guarantees for `prev[i]`: the head or an
in-range node with key below `key` tall enough to appear at level `i`,
whose level-`i` successor is not below `key`. -/
def SL.prevOK {α : Type} [LinearOrder α] [Inhabited α] (s : SL α) (key : α)
    (i : Nat) (r : Ref) : Prop :=
  (r = Ref.hd ∨ ∃ p, r = Ref.nd p ∧ p < s.nodes.length ∧ s.keyI p < key ∧
    i < s.heightAt p) ∧
  s.keyIsAfterNode key (s.nextOf r i) = false

/-- Skip-list well-formedness: the head has `kMaxHeight` links and none
above `max_height_`; `1 ≤ max_height_ ≤ kMaxHeight`; node heights lie in
`[1, max_height_]`; every link points into the arena, at a node tall
enough for the link's level, with a strictly larger key for node-to-node
links; keys are pairwise distinct; and the level-0 links out of the head
and out of every node are exactly the key-order successors. -/
def SL.WF {α : Type} [LinearOrder α] [Inhabited α] (s : SL α) : Prop :=
  s.headNext.length = kMaxHeight ∧
  (1 ≤ s.maxHeight ∧ s.maxHeight ≤ kMaxHeight) ∧
  (∀ L, s.maxHeight ≤ L → s.nextOf Ref.hd L = none) ∧
  (∀ i, i < s.nodes.length → 1 ≤ s.heightAt i ∧ s.heightAt i ≤ s.maxHeight) ∧
  (∀ L j, s.nextOf Ref.hd L = some j →
    j < s.nodes.length ∧ L < s.heightAt j) ∧
  (∀ i L j, i < s.nodes.length → s.nextOf (Ref.nd i) L = some j →
    j < s.nodes.length ∧ L < s.heightAt j ∧ s.keyI i < s.keyI j) ∧
  (∀ i j, i < j → j < s.nodes.length → s.keyI i ≠ s.keyI j) ∧
  s.zeroSucc none (s.nextOf Ref.hd 0) ∧
  (∀ i, i < s.nodes.length →
    s.zeroSucc (some (s.keyI i)) (s.nextOf (Ref.nd i) 0))

/-- Default options: 4 KiB block size, restart interval 16, no
compression, no filter policy. -/
def optsDefault : Opts :=
  { blockSize := 4096, restartInterval := 16, compression := kNoCompression,
    hasFilter := false }

/-- A trivial instantiation of the external collaborators, used to
evaluate theorems at concrete inputs. -/
def extTriv : Ext :=
  { crcVal := fun _ => 0, crcExt := fun _ _ => 0, crcMask := fun c => c,
    snappy := fun _ => none, sep := fun _ b => b, succ := fun k => k,
    createFilter := fun _ => [], filterKey := [] }

/-- Concrete builder states for evaluating theorems: a fresh builder over
an always-succeeding file, one with a latched error, and one whose next
file operation fails. -/
def tok : TB := TB.init extTriv optsDefault { written := [], script := [] }

def terr : TB := { tok with status := some 5 }

def tbad : TB := TB.init extTriv optsDefault { written := [], script := [some 3] }

/-- The keys of the spec's table-shape scenario S6. -/
def appleK : List Nat := [97, 112, 112, 108, 101]

def bananaK : List Nat := [98, 97, 110, 97, 110, 97]

/-- A finished block with no entries: single restart at 0, count 1. -/
def emptyBlockBytes : List Nat := [0, 0, 0, 0, 1, 0, 0, 0]

/-- The S6 data block: two prefix-compressed entries
(`apple -> "v1"`, `banana -> "v2"`) and the restart trailer. -/
def s6DataBlock : List Nat :=
  [0, 5, 2, 97, 112, 112, 108, 101, 118, 49,
   0, 6, 2, 98, 97, 110, 97, 110, 97, 118, 50,
   0, 0, 0, 0, 1, 0, 0, 0]

/-- The S6 index block: one entry mapping the comparator's short
successor of "banana" to the data block's handle `(0, 29)`. -/
def s6IndexBlock (ext : Ext) : List Nat :=
  [0] ++ putVarint (ext.succ bananaK).length ++ [2] ++ ext.succ bananaK ++
    [0, 29] ++ [0, 0, 0, 0, 1, 0, 0, 0]

/-- The S6 footer: meta-index handle `(34, 8)`, index handle
`(47, index block length)`, padding, magic. -/
def s6Footer (ext : Ext) : List Nat :=
  footerBytes (34, 8) (47, (s6IndexBlock ext).length)

/-- The S6 build: add "apple" and "banana" to a fresh builder over an
always-succeeding file with default options (no filter, no compression),
then finish. -/
def s6Run (ext : Ext) : TB :=
  (((TB.init ext optsDefault { written := [], script := [] }).add ext
      appleK [118, 49]).add ext bananaK [118, 50]).finish ext

/-- A concrete external-collaborator instantiation for the S6 scenario
(the short successor of any key is "c"). -/
def extS6 : Ext := { extTriv with succ := fun _ => [99] }

/-- The file contents of the S6 build after each block write. -/
def s6W1 (ext : Ext) : List Nat := s6DataBlock ++ trailerOf ext s6DataBlock 0

def s6W2 (ext : Ext) : List Nat :=
  s6W1 ext ++ emptyBlockBytes ++ trailerOf ext emptyBlockBytes 0

def s6W3 (ext : Ext) : List Nat :=
  s6W2 ext ++ s6IndexBlock ext ++ trailerOf ext (s6IndexBlock ext) 0

def s6W4 (ext : Ext) : List Nat := s6W3 ext ++ s6Footer ext

/-- The S6 builder state right after construction (no filter policy, so
the filter builder is null and the state does not depend on the external
collaborators). -/
def s6T0 : TB :=
  { opts := optsDefault, file := { written := [], script := [] },
    offset := 0, status := none, dataBlock := BlockB.init 16,
    indexBlock := BlockB.init 1, lastKey := [], numEntries := 0,
    closed := false, filterB := none, pendingIndexEntry := false,
    pendingHandle := (0, 0), compressedOutput := [] }

/-- The S6 builder state after both `Add` calls. -/
def s6TB : TB :=
  { opts := optsDefault, file := { written := [], script := [] },
    offset := 0, status := none,
    dataBlock :=
      { buffer := [0, 5, 2, 97, 112, 112, 108, 101, 118, 49,
                   0, 6, 2, 98, 97, 110, 97, 110, 97, 118, 50],
        restarts := [0], counter := 2, finished := false,
        lastKey := bananaK, restartInterval := 16 },
    indexBlock := BlockB.init 1, lastKey := bananaK, numEntries := 2,
    closed := false, filterB := none, pendingIndexEntry := false,
    pendingHandle := (0, 0), compressedOutput := [] }

/-- The S6 builder state after the data-block flush, closed. -/
def s6T2 (ext : Ext) : TB :=
  { opts := optsDefault, file := { written := s6W1 ext, script := [] },
    offset := 34, status := none, dataBlock := BlockB.init 16,
    indexBlock := BlockB.init 1, lastKey := bananaK, numEntries := 2,
    closed := true, filterB := none, pendingIndexEntry := true,
    pendingHandle := (0, 29), compressedOutput := [] }

/-- The S6 builder state after the meta-index write. -/
def s6T4 (ext : Ext) : TB :=
  { s6T2 ext with file := { written := s6W2 ext, script := [] },
                  offset := 47 }

/-- The S6 builder state after the index-block write. -/
def s6T6 (ext : Ext) : TB :=
  { s6T4 ext with file := { written := s6W3 ext, script := [] },
                  offset := 47 + (s6IndexBlock ext).length + 5,
                  lastKey := ext.succ bananaK,
                  pendingIndexEntry := false }

/-- The final S6 builder state, footer written. -/
def s6TF (ext : Ext) : TB :=
  { s6T6 ext with file := { written := s6W4 ext, script := [] },
                  offset := 47 + (s6IndexBlock ext).length + 5 +
                    (s6Footer ext).length }

/-- The shape of the S6 table file: the data block and its trailer, the
zero-entry meta-index block and its trailer, the one-entry index block
and its trailer, and the footer; the blocks decode as expected and the
footer is 48 bytes ending in the magic number `0xdb4775248b80fb57`
little-endian. -/
def s6Shape (ext : Ext) : Prop :=
  (s6Run ext).status = none ∧
  (s6Run ext).numEntries = 2 ∧
  (s6Run ext).file.written =
    s6DataBlock ++ trailerOf ext s6DataBlock 0 ++
    emptyBlockBytes ++ trailerOf ext emptyBlockBytes 0 ++
    s6IndexBlock ext ++ trailerOf ext (s6IndexBlock ext) 0 ++
    s6Footer ext ∧
  decodeBlock s6DataBlock = some [(appleK, [118, 49]), (bananaK, [118, 50])] ∧
  decodeBlock emptyBlockBytes = some [] ∧
  decodeBlock (s6IndexBlock ext) =
    some [(ext.succ bananaK, encodeHandle (0, 29))] ∧
  s6DataBlock.length = 29 ∧
  (trailerOf ext s6DataBlock 0).length = 5 ∧
  (s6Footer ext).length = 48 ∧
  (s6Footer ext).drop 40 = putFixed32 0x8b80fb57 ++ putFixed32 0xdb477524

/-! ## Theorems -/

/-- C9: an Arena allocation request of `n` bytes that does not fit the
current region either gets a dedicated region of exactly `n` bytes with
the current region's cursor and remaining count unchanged (when
`n > 1024`, a quarter of the default region size), or a fresh 4096-byte
region becomes the current region, discarding the old remaining bytes,
and the request is served from its start. -/
theorem arena_fallback_spec (a : Arena) (n : Nat) (hfit : a.remaining < n) :
    (1024 < n →
      a.allocate n =
        ((a.blocks.length, 0),
         { a with blocks := a.blocks ++ [n],
                  memUsage := a.memUsage + n + 8 })) ∧
    (n ≤ 1024 →
      a.allocate n =
        ((a.blocks.length, 0),
         { blocks := a.blocks ++ [kArenaBlockSize],
           cur := some a.blocks.length, curOffset := n,
           remaining := kArenaBlockSize - n,
           memUsage := a.memUsage + kArenaBlockSize + 8 })) := by
  have hno : ¬ n ≤ a.remaining := by omega
  constructor <;> intro h <;>
    simp only [Arena.allocate, Arena.allocateFallback, Arena.allocateNewBlock,
      kArenaBlockSize, hno, if_false, if_neg hno]
  · rw [if_pos (by omega : n > 4096 / 4)]
  · rw [if_neg (by omega : ¬ n > 4096 / 4)]

/-- C9 witness: both branches evaluated at concrete inputs (a request of
2000 bytes and one of 100 bytes against an arena with 10 bytes left). -/
theorem arena_fallback_spec_witness :
    ({ blocks := [4096], cur := some 0, curOffset := 4086, remaining := 10,
       memUsage := 4104 : Arena }.allocate 2000 =
      ((1, 0),
       { blocks := [4096, 2000], cur := some 0, curOffset := 4086,
         remaining := 10, memUsage := 6112 })) ∧
    ({ blocks := [], cur := none, curOffset := 0, remaining := 0,
       memUsage := 0 : Arena }.allocate 100 =
      ((0, 0),
       { blocks := [4096], cur := some 0, curOffset := 100,
         remaining := 3996, memUsage := 4104 })) := by
  constructor
  · have h := (arena_fallback_spec
      { blocks := [4096], cur := some 0, curOffset := 4086, remaining := 10,
        memUsage := 4104 } 2000 (by decide)).1 (by decide)
    simpa using h
  · have h := (arena_fallback_spec
      { blocks := [], cur := none, curOffset := 0, remaining := 0,
        memUsage := 0 } 100 (by decide)).2 (by decide)
    simpa using h

/-- C6 counterexample: an 8-byte raw block whose Snappy output is 7 bytes
is exactly 12.5% smaller (8·7 ≤ 7·8), which the claim says is stored
compressed, yet `WriteBlock` stores the raw bytes with `kNoCompression`
because the code requires `compressed < raw - raw/8` strictly. -/
theorem snappy_threshold_counterexample :
    8 * (List.replicate 7 0).length ≤ 7 * (List.replicate 8 0).length ∧
    compressSelect { extTriv with snappy := fun _ => some (List.replicate 7 0) }
        kSnappyCompression (List.replicate 8 0) =
      (List.replicate 8 0, kNoCompression) := by
  exact ⟨by decide, rfl⟩

/-- C6 amended: with Snappy enabled and `Snappy_Compress` succeeding, the
compressed form is stored iff its size is strictly smaller than
`raw_size - raw_size/8` (strictly more than 12.5% smaller); otherwise —
including when Snappy is unsupported — the raw bytes are stored with
`kNoCompression`. -/
theorem snappy_threshold_amended (ext : Ext) (raw c : List Nat) :
    (ext.snappy raw = some c →
      compressSelect ext kSnappyCompression raw =
        if c.length < raw.length - raw.length / 8 then (c, kSnappyCompression)
        else (raw, kNoCompression)) ∧
    (ext.snappy raw = none →
      compressSelect ext kSnappyCompression raw = (raw, kNoCompression)) := by
  constructor <;> intro h <;>
    simp [compressSelect, h]

/-- C6 amended, witness: a 16-byte block compressed to 7 bytes is stored
compressed; with Snappy unsupported the raw bytes are stored. -/
theorem snappy_threshold_amended_witness :
    compressSelect { extTriv with snappy := fun _ => some (List.replicate 7 0) }
        kSnappyCompression (List.replicate 16 0) =
      (List.replicate 7 0, kSnappyCompression) ∧
    compressSelect extTriv kSnappyCompression (List.replicate 16 0) =
      (List.replicate 16 0, kNoCompression) := by
  constructor
  · have h := (snappy_threshold_amended
      { extTriv with snappy := fun _ => some (List.replicate 7 0) }
      (List.replicate 16 0) (List.replicate 7 0)).1 rfl
    simpa using h
  · exact (snappy_threshold_amended extTriv (List.replicate 16 0) []).2 rfl

/-- C7: a latched non-OK status makes `Add` and `Flush` no-ops that leave
the entire builder state (status included) unchanged, and `WriteRawBlock`
advances the running file offset by `contents.length + 5` exactly when
both appends succeed (final status OK), leaving it unchanged on any
error. -/
theorem status_latch_and_offset (ext : Ext) (t : TB)
    (key value contents : List Nat) (ctype : Nat) :
    (t.status ≠ none → t.add ext key value = t ∧ t.flush ext = t) ∧
    ((t.writeRawBlock ext contents ctype).1.status = none →
      (t.writeRawBlock ext contents ctype).1.offset =
        t.offset + contents.length + kBlockTrailerSize) ∧
    ((t.writeRawBlock ext contents ctype).1.status ≠ none →
      (t.writeRawBlock ext contents ctype).1.offset = t.offset) := by
  refine ⟨fun h => ⟨?_, ?_⟩, ?_, ?_⟩
  · simp [TB.add, h]
  · simp [TB.flush, h]
  all_goals
    simp only [TB.writeRawBlock]
    rcases hap : t.file.append contents with ⟨s1, f1⟩
    by_cases h1 : s1 = none
    · subst h1
      rcases hap2 : f1.append (trailerOf ext contents ctype) with ⟨s2, f2⟩
      by_cases h2 : s2 = none
      · subst h2; simp
      · simp [h2]
    · simp [h1]

/-- C7 witness: with an error latched, `Add` and `Flush` change nothing;
a fully successful `WriteRawBlock` of 3 content bytes advances the offset
by 8, and one whose first append fails leaves the offset at 0. -/
theorem status_latch_and_offset_witness :
    (TB.add extTriv terr [1] [2] = terr ∧ TB.flush extTriv terr = terr) ∧
    (TB.writeRawBlock extTriv tok [1, 2, 3] 0).1.offset = 8 ∧
    (TB.writeRawBlock extTriv tbad [1, 2, 3] 0).1.offset = 0 := by
  refine ⟨(status_latch_and_offset extTriv terr [1] [2] [] 0).1 (by decide), ?_, ?_⟩
  · exact (status_latch_and_offset extTriv tok [1] [2] [1, 2, 3] 0).2.1 (by decide)
  · exact (status_latch_and_offset extTriv tbad [1] [2] [1, 2, 3] 0).2.2 (by decide)

/-- C10: on a cache miss, `TableCache::FindTable` opens the `.ldb` name
first and, when that fails but the `.sst` open succeeds, proceeds exactly
as if the open had succeeded with an OK status; when both opens fail or
`Table::Open` fails, the cache is left unchanged (so a later call for the
same file number misses again and retries from disk) and the first open
error resp. the parse error is returned; an entry holding the file and
parsed table is inserted exactly on success. -/
theorem table_cache_find_table_spec {F T : Type}
    (openLdb openSst : Except Nat F) (tableOpen : F → Except Nat T)
    (cache : List (Nat × F × T)) (fn : Nat)
    (hmiss : cacheLookup cache fn = none) :
    (∀ e f, openLdb = Except.error e → openSst = Except.ok f →
      findTable openLdb openSst tableOpen cache fn =
        findTable (Except.ok f) openSst tableOpen cache fn) ∧
    (∀ e e', openLdb = Except.error e → openSst = Except.error e' →
      findTable openLdb openSst tableOpen cache fn = (some e, cache, none)) ∧
    (∀ f e2, openTableFile openLdb openSst = (none, some f) →
      tableOpen f = Except.error e2 →
      findTable openLdb openSst tableOpen cache fn =
        (some e2, cache, none)) ∧
    (∀ f tbl, openTableFile openLdb openSst = (none, some f) →
      tableOpen f = Except.ok tbl →
      findTable openLdb openSst tableOpen cache fn =
        (none, (fn, f, tbl) :: cache, some (f, tbl))) := by
  refine ⟨?_, ?_, ?_, ?_⟩
  · intro e f he hf
    subst he; subst hf
    simp [findTable, hmiss, openTableFile]
  · intro e e' he hf
    subst he; subst hf
    simp [findTable, hmiss, openTableFile]
  · intro f e2 hopen hparse
    simp [findTable, hmiss, hopen, hparse]
  · intro f tbl hopen hparse
    simp [findTable, hmiss, hopen, hparse]

/-- C10 witness: over `F = T = Nat` with an empty cache, the `.sst`
fallback, the double-failure, the parse-failure and the success cases
evaluated at concrete outcomes. -/
theorem table_cache_find_table_spec_witness :
    (findTable (Except.error 7) (Except.ok 3)
        (fun f => Except.ok (f + 1)) ([] : List (Nat × Nat × Nat)) 5 =
      findTable (Except.ok 3) (Except.ok 3)
        (fun f => Except.ok (f + 1)) [] 5) ∧
    (findTable (Except.error 7) (Except.error 9)
        (fun f => Except.ok (f + 1)) ([] : List (Nat × Nat × Nat)) 5 =
      (some 7, [], none)) ∧
    (findTable (Except.ok 3) (Except.ok 3)
        (fun _ => (Except.error 11 : Except Nat Nat))
        ([] : List (Nat × Nat × Nat)) 5 = (some 11, [], none)) ∧
    (findTable (Except.ok 3) (Except.ok 3)
        (fun f => Except.ok (f + 1)) ([] : List (Nat × Nat × Nat)) 5 =
      (none, [(5, 3, 4)], some (3, 4))) := by
  refine ⟨?_, ?_, ?_, ?_⟩
  · exact (table_cache_find_table_spec (Except.error 7) (Except.ok 3)
      (fun f => Except.ok (f + 1)) [] 5 rfl).1 7 3 rfl rfl
  · exact (table_cache_find_table_spec (Except.error 7) (Except.error 9)
      (fun f => Except.ok (f + 1)) [] 5 rfl).2.1 7 9 rfl rfl
  · exact (table_cache_find_table_spec (Except.ok 3) (Except.ok 3)
      (fun _ => (Except.error 11 : Except Nat Nat)) [] 5 rfl).2.2.1 3 11 rfl rfl
  · exact (table_cache_find_table_spec (Except.ok 3) (Except.ok 3)
      (fun f => Except.ok (f + 1)) [] 5 rfl).2.2.2 3 4 rfl rfl

/-- `GenerateFilter` always records exactly one more filter offset. -/
theorem FB.generateFilter_offsets_length (pol : List (List Nat) → List Nat)
    (f : FB) :
    (f.generateFilter pol).filterOffsets.length = f.filterOffsets.length + 1 := by
  unfold FB.generateFilter
  by_cases h : f.starts.length = 0 <;> simp [h]

/-- The `StartBlock` loop tops the offset count up to the filter index. -/
theorem FB.startBlockAux_offsets_length (pol : List (List Nat) → List Nat)
    (idx : Nat) :
    ∀ (fuel : Nat) (f : FB), idx - f.filterOffsets.length ≤ fuel →
      (FB.startBlockAux pol f idx fuel).filterOffsets.length =
        max f.filterOffsets.length idx := by
  intro fuel
  induction fuel with
  | zero =>
    intro f hf
    simp only [FB.startBlockAux]
    omega
  | succ n ih =>
    intro f hf
    simp only [FB.startBlockAux]
    by_cases h : idx > f.filterOffsets.length
    · rw [if_pos h, ih (f.generateFilter pol)
        (by rw [FB.generateFilter_offsets_length]; omega),
        FB.generateFilter_offsets_length]
      omega
    · rw [if_neg h]
      omega

/-- `StartBlock(off)` leaves `max(previous count, off / base)` offsets. -/
theorem FB.startBlock_offsets_length (pol : List (List Nat) → List Nat)
    (f : FB) (off : Nat) :
    (f.startBlock pol off).filterOffsets.length =
      max f.filterOffsets.length (off / kFilterBase) := by
  unfold FB.startBlock
  exact FB.startBlockAux_offsets_length pol (off / kFilterBase)
    (off / kFilterBase) f (Nat.sub_le _ _)

/-- After running an interleaved sequence, the offset count is the largest
filter index named by a `StartBlock` call. -/
theorem FB.run_offsets_length (pol : List (List Nat) → List Nat)
    (evs : List FEv) :
    (FB.run pol evs).filterOffsets.length = maxFilterIndex evs := by
  suffices h : ∀ (f : FB),
      (evs.foldl
        (fun f e =>
          match e with
          | FEv.addKey k => f.addKey k
          | FEv.startBlock off => f.startBlock pol off) f).filterOffsets.length =
        (FEv.offs evs).foldl (fun m off => max m (off / kFilterBase))
          f.filterOffsets.length by
    have := h FB.init
    simpa [FB.run, maxFilterIndex, FB.init] using this
  induction evs with
  | nil => intro f; rfl
  | cons e rest ih =>
    intro f
    cases e with
    | addKey k =>
      simp only [List.foldl_cons, FEv.offs, List.filterMap_cons]
      have := ih (f.addKey k)
      simpa [FEv.offs, FB.addKey] using this
    | startBlock off =>
      simp only [List.foldl_cons, FEv.offs, List.filterMap_cons]
      have := ih (f.startBlock pol off)
      simpa [FEv.offs, FB.startBlock_offsets_length] using this

/-- C3 counterexample: for the monotone sequence `AddKey "x";
StartBlock 4096` the claim predicts `4096/2048 + 1 = 3` offset entries,
but `Finish` emits only 2 — no trailing filter is generated because no
key is pending at `Finish`. -/
theorem filter_offsets_count_counterexample :
    MonoOffs [FEv.addKey [120], FEv.startBlock 4096] ∧
    maxFilterIndex [FEv.addKey [120], FEv.startBlock 4096] + 1 = 3 ∧
    ((FB.run (fun _ => []) [FEv.addKey [120], FEv.startBlock 4096]).finishState
        (fun _ => [])).filterOffsets.length = 2 := by
  refine ⟨?_, by decide, by decide⟩
  simp [MonoOffs, FEv.offs]

/-- C3 amended: for every interleaved `AddKey` / `StartBlock(off_i)`
sequence with monotonically non-decreasing offsets, the block returned by
`Finish` has exactly `max_i(off_i / 2048) + p` filter-offset entries,
where `p = 1` when at least one key is still pending at `Finish` (some
`AddKey` not yet rolled into a filter) and `p = 0` otherwise. -/
theorem filter_offsets_count_amended (pol : List (List Nat) → List Nat)
    (evs : List FEv) (hmono : MonoOffs evs) :
    ((FB.run pol evs).finishState pol).filterOffsets.length =
      maxFilterIndex evs +
        (if (FB.run pol evs).starts.isEmpty then 0 else 1) := by
  unfold FB.finishState
  by_cases h : (FB.run pol evs).starts.isEmpty
  · simp [h, FB.run_offsets_length]
  · simp [h, FB.generateFilter_offsets_length, FB.run_offsets_length]

/-- C3 amended, witness: the spec's segmenting scenario
`StartBlock 0; AddKey "x"; StartBlock 4096; AddKey "y"; Finish` produces
three filter-offset entries (`max = 2`, one key pending). -/
theorem filter_offsets_count_amended_witness :
    ((FB.run (fun ks => (ks.flatten : List Nat))
        [FEv.startBlock 0, FEv.addKey [120], FEv.startBlock 4096,
         FEv.addKey [121]]).finishState (fun ks => ks.flatten)).filterOffsets.length = 3 := by
  have h := filter_offsets_count_amended (fun ks => ks.flatten)
    [FEv.startBlock 0, FEv.addKey [120], FEv.startBlock 4096, FEv.addKey [121]]
    (by simp [MonoOffs, FEv.offs])
  simpa using h

/-- C4 counterexample: a well-formed filter block with one empty filter
(offset array `[0]`, array offset 0, base_lg 11 — exactly the builder's
output for one empty filter) and a policy answering true on every filter:
the claim says an in-range empty filter range returns false for every
policy, but the code hands the empty filter to the policy and returns
true. -/
theorem keyMayMatch_empty_counterexample :
    FR.keyMayMatch (fun _ _ => true)
      (FR.init [0, 0, 0, 0, 0, 0, 0, 0, 11]) 0 [] = true := by
  decide

/-- C4 amended: `KeyMayMatch` returns true whenever the filter index is
out of range; when the index is in range with `start ≤ limit ≤` the
offset-array position, the policy decides (in particular an empty range
passes the empty filter to the policy rather than answering false
directly); an inconsistent pair with `start = limit >` array position
returns false; and the other inconsistent pairs — `start > limit`, or
`start < limit` with `limit` beyond the array position — return true. -/
theorem keyMayMatch_cases (pol : List Nat → List Nat → Bool) (r : FR)
    (blockOffset : Nat) (key : List Nat) :
    (r.num ≤ blockOffset >>> r.baseLg →
      r.keyMayMatch pol blockOffset key = true) ∧
    (blockOffset >>> r.baseLg < r.num →
      r.offAt (blockOffset >>> r.baseLg) ≤ r.offAt (blockOffset >>> r.baseLg + 1) →
      r.offAt (blockOffset >>> r.baseLg + 1) ≤ r.offsetPos →
      r.keyMayMatch pol blockOffset key =
        pol key ((r.data.drop (r.offAt (blockOffset >>> r.baseLg))).take
          (r.offAt (blockOffset >>> r.baseLg + 1) -
            r.offAt (blockOffset >>> r.baseLg)))) ∧
    (blockOffset >>> r.baseLg < r.num →
      r.offAt (blockOffset >>> r.baseLg) = r.offAt (blockOffset >>> r.baseLg + 1) →
      r.offsetPos < r.offAt (blockOffset >>> r.baseLg + 1) →
      r.keyMayMatch pol blockOffset key = false) ∧
    (blockOffset >>> r.baseLg < r.num →
      r.offAt (blockOffset >>> r.baseLg + 1) < r.offAt (blockOffset >>> r.baseLg) →
      r.keyMayMatch pol blockOffset key = true) ∧
    (blockOffset >>> r.baseLg < r.num →
      r.offAt (blockOffset >>> r.baseLg) < r.offAt (blockOffset >>> r.baseLg + 1) →
      r.offsetPos < r.offAt (blockOffset >>> r.baseLg + 1) →
      r.keyMayMatch pol blockOffset key = true) := by
  refine ⟨?_, ?_, ?_, ?_, ?_⟩
  · intro h
    simp only [FR.keyMayMatch]
    rw [if_neg (by omega)]
  · intro h1 h2 h3
    simp only [FR.keyMayMatch]
    rw [if_pos h1, if_pos ⟨h2, h3⟩]
  · intro h1 h2 h3
    simp only [FR.keyMayMatch]
    rw [if_pos h1, if_neg (by omega), if_pos h2]
  · intro h1 h2
    simp only [FR.keyMayMatch]
    rw [if_pos h1, if_neg (by omega), if_neg (by omega)]
  · intro h1 h2 h3
    simp only [FR.keyMayMatch]
    rw [if_pos h1, if_neg (by omega), if_neg (by omega)]

/-- C4 amended, witness: the five cases evaluated on the one-empty-filter
block (and, for the out-of-range and inconsistent cases, on blocks whose
offset words are out of line). -/
theorem keyMayMatch_cases_witness :
    FR.keyMayMatch (fun _ _ => false)
      (FR.init [0, 0, 0, 0, 0, 0, 0, 0, 11]) 0 [] = false ∧
    FR.keyMayMatch (fun _ _ => false)
      (FR.init [0, 0, 0, 0, 0, 0, 0, 0, 11]) 4096 [] = true ∧
    FR.keyMayMatch (fun _ _ => false)
      (FR.init [9, 0, 0, 0, 9, 0, 0, 0, 0, 0, 0, 0, 11]) 0 [] = false ∧
    FR.keyMayMatch (fun _ _ => false)
      (FR.init [9, 0, 0, 0, 3, 0, 0, 0, 0, 0, 0, 0, 11]) 0 [] = true ∧
    FR.keyMayMatch (fun _ _ => false)
      (FR.init [1, 0, 0, 0, 5, 0, 0, 0, 0, 0, 0, 0, 11]) 0 [] = true := by
  refine ⟨?_, ?_, ?_, ?_, ?_⟩
  · have h := (keyMayMatch_cases (fun _ _ => false)
      (FR.init [0, 0, 0, 0, 0, 0, 0, 0, 11]) 0 []).2.1
      (by decide) (by decide) (by decide)
    simpa using h
  · exact (keyMayMatch_cases (fun _ _ => false)
      (FR.init [0, 0, 0, 0, 0, 0, 0, 0, 11]) 4096 []).1 (by decide)
  · exact (keyMayMatch_cases (fun _ _ => false)
      (FR.init [9, 0, 0, 0, 9, 0, 0, 0, 0, 0, 0, 0, 11]) 0 []).2.2.1
      (by decide) (by decide) (by decide)
  · exact (keyMayMatch_cases (fun _ _ => false)
      (FR.init [9, 0, 0, 0, 3, 0, 0, 0, 0, 0, 0, 0, 11]) 0 []).2.2.2.1
      (by decide) (by decide)
  · exact (keyMayMatch_cases (fun _ _ => false)
      (FR.init [1, 0, 0, 0, 5, 0, 0, 0, 0, 0, 0, 0, 11]) 0 []).2.2.2.2
      (by decide) (by decide) (by decide)

/-- Fuel does not matter as long as it exceeds the encoded value. -/
theorem putVarintAux_fuel : ∀ (fuel1 : Nat) (n : Nat) (fuel2 : Nat),
    n < fuel1 → n < fuel2 → putVarintAux n fuel1 = putVarintAux n fuel2 := by
  intro fuel1
  induction fuel1 with
  | zero => intro n fuel2 h1 _; omega
  | succ f1 ih =>
    intro n fuel2 h1 h2
    cases fuel2 with
    | zero => omega
    | succ f2 =>
      simp only [putVarintAux]
      by_cases h : n < 128
      · simp [h]
      · simp only [if_neg h]
        have hdiv : n / 128 < n := Nat.div_lt_self (by omega) (by omega)
        rw [ih (n / 128) f2 (by omega) (by omega)]

/-- The natural unfolding of `putVarint`. -/
theorem putVarint_eq (n : Nat) : putVarint n =
    if n < 128 then [n] else (n % 128 + 128) :: putVarint (n / 128) := by
  show putVarintAux n (n + 1) = _
  simp only [putVarintAux]
  by_cases h : n < 128
  · simp [h]
  · simp only [if_neg h]
    have hdiv : n / 128 < n := Nat.div_lt_self (by omega) (by omega)
    rw [putVarintAux_fuel n (n / 128) (n / 128 + 1) (by omega) (by omega)]
    rfl

/-- A varint encoding is never empty. -/
theorem putVarint_ne_nil (n : Nat) : putVarint n ≠ [] := by
  rw [putVarint_eq]
  split <;> simp

/-- Varint roundtrip: decoding an encoded value consumes exactly its
bytes. -/
theorem decodeVarint_putVarint (n : Nat) (rest : List Nat) :
    decodeVarint (putVarint n ++ rest) = some (n, rest) := by
  induction n using Nat.strong_induction_on generalizing rest with
  | _ n ih =>
    rw [putVarint_eq]
    by_cases h : n < 128
    · simp [h, decodeVarint]
    · have hdiv : n / 128 < n := Nat.div_lt_self (by omega) (by omega)
      simp only [if_neg h, List.cons_append, decodeVarint]
      rw [if_neg (by omega : ¬ n % 128 + 128 < 128), ih (n / 128) hdiv]
      simp only [Option.some.injEq, Prod.mk.injEq]
      refine ⟨?_, trivial⟩
      have h1 : (n % 128 + 128) % 128 = n % 128 := by omega
      rw [h1]
      omega

theorem commonLen_le_left : ∀ (a b : List Nat), commonLen a b ≤ a.length := by
  intro a
  induction a with
  | nil => intro b; cases b <;> simp [commonLen]
  | cons x xs ih =>
    intro b
    cases b with
    | nil => simp [commonLen]
    | cons y ys =>
      by_cases h : x = y <;> simp [commonLen, h]
      exact ih ys

theorem commonLen_le_right : ∀ (a b : List Nat), commonLen a b ≤ b.length := by
  intro a
  induction a with
  | nil => intro b; cases b <;> simp [commonLen]
  | cons x xs ih =>
    intro b
    cases b with
    | nil => simp [commonLen]
    | cons y ys =>
      by_cases h : x = y <;> simp [commonLen, h]
      exact ih ys

/-- The two keys agree on their common run. -/
theorem take_commonLen : ∀ (a b : List Nat),
    a.take (commonLen a b) = b.take (commonLen a b) := by
  intro a
  induction a with
  | nil => intro b; cases b <;> simp [commonLen]
  | cons x xs ih =>
    intro b
    cases b with
    | nil => simp [commonLen]
    | cons y ys =>
      by_cases h : x = y <;> simp [commonLen, h]
      exact ih ys

/-- After `Add(key, value)` the builder's `last_key_` equals `key`
(the `resize`/`append` update rebuilds the key in place). -/
theorem BlockB.add_lastKey (b : BlockB) (k v : List Nat) :
    (b.add k v).lastKey = k := by
  unfold BlockB.add
  by_cases h : b.counter < b.restartInterval
  · simp only [h, if_true]
    rw [take_commonLen]
    exact List.take_append_drop _ _
  · simp [h]

/-- The buffer produced by a run of `Add` calls is the ghost encoding of
the added pairs, appended to the starting buffer. -/
theorem BlockB.addAll_buffer : ∀ (ps : List (List Nat × List Nat)) (b : BlockB),
    (b.addAll ps).buffer =
      b.buffer ++ encodeFrom b.restartInterval b.counter b.lastKey ps := by
  intro ps
  induction ps with
  | nil => intro b; simp [BlockB.addAll, encodeFrom]
  | cons p rest ih =>
    intro b
    obtain ⟨k, v⟩ := p
    have hstep : b.addAll ((k, v) :: rest) = (b.add k v).addAll rest := by
      simp [BlockB.addAll]
    rw [hstep, ih, BlockB.add_lastKey]
    have hint : (b.add k v).restartInterval = b.restartInterval := by
      simp [BlockB.add]
    have hcount : (b.add k v).counter =
        (if b.counter < b.restartInterval then b.counter else 0) + 1 := by
      simp [BlockB.add]
    have hbuf : (b.add k v).buffer = b.buffer ++
        (putVarint (if b.counter < b.restartInterval
            then commonLen b.lastKey k else 0) ++
         putVarint (k.length - (if b.counter < b.restartInterval
            then commonLen b.lastKey k else 0)) ++
         putVarint v.length ++
         k.drop (if b.counter < b.restartInterval
            then commonLen b.lastKey k else 0) ++ v) := by
      simp [BlockB.add, List.append_assoc]
    rw [hint, hcount, hbuf]
    have hc1 : (if b.counter < b.restartInterval then b.counter else 0) + 1 =
        (if b.counter < b.restartInterval then b.counter + 1 else 1) := by
      split <;> rfl
    rw [hc1]
    conv_rhs => rw [encodeFrom]
    simp [List.append_assoc]

theorem putVarint_length_pos (n : Nat) : 0 < (putVarint n).length :=
  List.length_pos.mpr (putVarint_ne_nil n)

/-- Parsing an empty region yields no entries, whatever the fuel. -/
theorem decEntries_nil (fuel : Nat) (prev : List Nat) :
    decEntries fuel [] prev = some [] := by
  cases fuel <;> rfl

/-- One parsing step on a non-empty region. -/
theorem decEntries_pos (fuel : Nat) (bytes prev : List Nat)
    (hb : bytes ≠ []) :
    decEntries (fuel + 1) bytes prev =
      match decodeVarint bytes with
      | none => none
      | some (shared, r1) =>
        match decodeVarint r1 with
        | none => none
        | some (nonShared, r2) =>
          match decodeVarint r2 with
          | none => none
          | some (vlen, r3) =>
            if shared ≤ prev.length ∧ nonShared + vlen ≤ r3.length then
              match decEntries fuel (r3.drop (nonShared + vlen))
                  (prev.take shared ++ r3.take nonShared) with
              | some ps =>
                some ((prev.take shared ++ r3.take nonShared,
                       (r3.drop nonShared).take vlen) :: ps)
              | none => none
            else none := by
  cases bytes with
  | nil => exact absurd rfl hb
  | cons b bs => rfl

/-- Decoding inverts the ghost encoder: the entries written from any
counter and previous key parse back to exactly the input pairs. -/
theorem decEntries_encodeFrom (interval : Nat) :
    ∀ (ps : List (List Nat × List Nat)) (counter : Nat) (prev : List Nat)
      (fuel : Nat), (encodeFrom interval counter prev ps).length ≤ fuel →
      decEntries fuel (encodeFrom interval counter prev ps) prev = some ps := by
  intro ps
  induction ps with
  | nil =>
    intro counter prev fuel _
    rw [encodeFrom, decEntries_nil]
  | cons p rest ih =>
    intro counter prev fuel hf
    obtain ⟨k, v⟩ := p
    rw [encodeFrom] at hf ⊢
    set s := if counter < interval then commonLen prev k else 0 with hs
    set c1 := if counter < interval then counter + 1 else 1 with hc1
    have hsprev : s ≤ prev.length := by
      rw [hs]; split
      · exact commonLen_le_left _ _
      · exact Nat.zero_le _
    have hsk : s ≤ k.length := by
      rw [hs]; split
      · exact commonLen_le_right _ _
      · exact Nat.zero_le _
    have htake : prev.take s = k.take s := by
      rw [hs]; split
      · exact take_commonLen _ _
      · rfl
    set tail := encodeFrom interval c1 k rest with htail
    simp only [List.append_assoc] at hf ⊢
    have hne : putVarint s ++ (putVarint (k.length - s) ++ (putVarint v.length ++
        (k.drop s ++ (v ++ tail)))) ≠ [] := by
      intro hcontra
      rw [List.append_eq_nil] at hcontra
      exact putVarint_ne_nil s hcontra.1
    have hlenf : (putVarint s ++ (putVarint (k.length - s) ++ (putVarint v.length ++
        (k.drop s ++ (v ++ tail))))).length =
        (putVarint s).length + ((putVarint (k.length - s)).length +
          ((putVarint v.length).length +
            ((k.drop s).length + (v.length + tail.length)))) := by
      simp [List.length_append]
    cases fuel with
    | zero =>
      exfalso
      have h1 := putVarint_length_pos s
      rw [hlenf] at hf
      omega
    | succ f =>
      rw [decEntries_pos f _ prev hne]
      simp only [decodeVarint_putVarint]
      have hr3len : (k.drop s ++ (v ++ tail)).length =
          (k.length - s) + (v.length + tail.length) := by
        simp [List.length_append, List.length_drop]
      rw [if_pos ⟨hsprev, by rw [hr3len]; omega⟩]
      have htake2 : (k.drop s ++ (v ++ tail)).take (k.length - s) = k.drop s :=
        List.take_left' (by simp [List.length_drop])
      have hdrop2 : (k.drop s ++ (v ++ tail)).drop (k.length - s) = v ++ tail :=
        List.drop_left' (by simp [List.length_drop])
      have hkey : prev.take s ++ (k.drop s ++ (v ++ tail)).take (k.length - s) = k := by
        rw [htake2, htake]
        exact List.take_append_drop _ _
      have hvalue : ((k.drop s ++ (v ++ tail)).drop (k.length - s)).take v.length = v := by
        rw [hdrop2]
        exact List.take_left _ _
      have hrest : (k.drop s ++ (v ++ tail)).drop ((k.length - s) + v.length) = tail := by
        rw [show k.drop s ++ (v ++ tail) = (k.drop s ++ v) ++ tail by
          simp [List.append_assoc]]
        exact List.drop_left' (by simp [List.length_drop])
      rw [hrest, hkey]
      have hfuel : tail.length ≤ f := by
        have h1 := putVarint_length_pos s
        rw [hlenf] at hf
        omega
      rw [ih c1 k f hfuel, hvalue]

/-- Restart bookkeeping along a run: with `m` entries already added to a
builder in the given shape, the counter is positive once any entry exists
and the restart count never exceeds the entry count (a single restart for
an empty builder). -/
theorem BlockB.addAll_inv : ∀ (ps : List (List Nat × List Nat)) (b : BlockB)
    (m : Nat), 1 ≤ b.restartInterval →
    (m = 0 → b.counter = 0 ∧ b.restarts.length = 1) →
    (1 ≤ m → 1 ≤ b.counter ∧ b.restarts.length ≤ m) →
    ((m + ps.length = 0 →
        (b.addAll ps).counter = 0 ∧ (b.addAll ps).restarts.length = 1) ∧
     (1 ≤ m + ps.length →
        1 ≤ (b.addAll ps).counter ∧
          (b.addAll ps).restarts.length ≤ m + ps.length)) := by
  intro ps
  induction ps with
  | nil =>
    intro b m hi h0 h1
    simp only [List.length_nil, Nat.add_zero]
    exact ⟨h0, h1⟩
  | cons p rest ih =>
    intro b m hi h0 h1
    obtain ⟨k, v⟩ := p
    have hstep : b.addAll ((k, v) :: rest) = (b.add k v).addAll rest := by
      simp [BlockB.addAll]
    rw [hstep]
    have hint : (b.add k v).restartInterval = b.restartInterval := by
      simp [BlockB.add]
    have hnew0 : m + 1 = 0 → (b.add k v).counter = 0 ∧
        (b.add k v).restarts.length = 1 := by omega
    have hnew1 : 1 ≤ m + 1 → 1 ≤ (b.add k v).counter ∧
        (b.add k v).restarts.length ≤ m + 1 := by
      intro _
      by_cases hc : b.counter < b.restartInterval
      · have hcnt : (b.add k v).counter = b.counter + 1 := by
          simp [BlockB.add, hc]
        have hrs : (b.add k v).restarts.length = b.restarts.length := by
          simp [BlockB.add, hc]
        rcases Nat.eq_zero_or_pos m with hm | hm
        · have := h0 hm
          omega
        · have := h1 hm
          omega
      · have hcpos : 1 ≤ b.counter := le_trans hi (Nat.not_lt.mp hc)
        have hm : 1 ≤ m := by
          by_contra hm0
          have := (h0 (by omega)).1
          omega
        have hcnt : (b.add k v).counter = 1 := by
          simp [BlockB.add, hc]
        have hrs : (b.add k v).restarts.length = b.restarts.length + 1 := by
          simp [BlockB.add, hc]
        have := h1 hm
        omega
    have hmain := ih (b.add k v) (m + 1) (by rw [hint]; exact hi) hnew0 hnew1
    rw [List.length_cons]
    constructor
    · intro hm
      exact hmain.1 (by omega)
    · intro hm
      obtain ⟨hcc, hrr⟩ := hmain.2 (by omega)
      exact ⟨hcc, by omega⟩

/-- Restart count of a full run from a fresh builder. -/
theorem BlockB.addAll_restarts_le (interval : Nat) (hi : 1 ≤ interval)
    (ps : List (List Nat × List Nat)) :
    ((BlockB.init interval).addAll ps).restarts.length ≤ max 1 ps.length := by
  have h := BlockB.addAll_inv ps (BlockB.init interval) 0
    (by simpa [BlockB.init] using hi)
    (fun _ => by simp [BlockB.init])
    (fun hcon => absurd hcon (by norm_num))
  rcases Nat.eq_zero_or_pos ps.length with hl | hl
  · have := (h.1 (by omega)).2
    omega
  · have := (h.2 (by omega)).2
    omega

theorem length_flatten_map_putFixed32 (rs : List Nat) :
    ((rs.map putFixed32).flatten).length = 4 * rs.length := by
  induction rs with
  | nil => rfl
  | cons r rest ih =>
    simp only [List.map_cons, List.flatten_cons, List.length_append, ih,
      List.length_cons]
    simp [putFixed32]
    omega

/-- Reading back a fixed32 written at the end of a byte string. -/
theorem decFixed32At_append (a : List Nat) (n : Nat) :
    decFixed32At (a ++ putFixed32 n) a.length = n % 2 ^ 32 := by
  unfold decFixed32At byteAt
  have h0 : (a ++ putFixed32 n).get? a.length = some (n % 256) := by
    rw [List.get?_append_right (le_refl _)]
    simp [putFixed32]
  have h1 : (a ++ putFixed32 n).get? (a.length + 1) = some (n / 256 % 256) := by
    rw [List.get?_append_right (by omega)]
    simp [putFixed32, Nat.add_sub_cancel_left]
  have h2 : (a ++ putFixed32 n).get? (a.length + 2) =
      some (n / 2 ^ 16 % 256) := by
    rw [List.get?_append_right (by omega)]
    simp [putFixed32, Nat.add_sub_cancel_left]
  have h3 : (a ++ putFixed32 n).get? (a.length + 3) =
      some (n / 2 ^ 24 % 256) := by
    rw [List.get?_append_right (by omega)]
    simp [putFixed32, Nat.add_sub_cancel_left]
  rw [h0, h1, h2, h3]
  simp only [Option.getD_some]
  omega

/-- Any run of `Add` calls from a fresh builder decodes back to its input
(ascending keys are not needed for decodability). -/
theorem decodeBlock_addAll (interval : Nat) (ps : List (List Nat × List Nat))
    (hi : 1 ≤ interval) (hlen : ps.length < 2 ^ 32) :
    decodeBlock ((BlockB.init interval).addAll ps).finishBytes = some ps := by
  set B := (BlockB.init interval).addAll ps with hB
  have hbuf : B.buffer = encodeFrom interval 0 [] ps := by
    have h := BlockB.addAll_buffer ps (BlockB.init interval)
    simpa [BlockB.init] using h
  have hRle : B.restarts.length ≤ max 1 ps.length :=
    BlockB.addAll_restarts_le interval hi ps
  have hR : B.restarts.length < 2 ^ 32 := by
    have h32 : (1 : Nat) < 2 ^ 32 := by norm_num
    omega
  have hflat : ((B.restarts.map putFixed32).flatten).length =
      4 * B.restarts.length := length_flatten_map_putFixed32 _
  have hbytes : B.finishBytes =
      (B.buffer ++ (B.restarts.map putFixed32).flatten) ++
        putFixed32 B.restarts.length := by
    simp [BlockB.finishBytes, List.append_assoc]
  have hlen1 : B.finishBytes.length =
      B.buffer.length + 4 * B.restarts.length + 4 := by
    rw [hbytes]
    have h4 : (putFixed32 B.restarts.length).length = 4 := rfl
    simp only [List.length_append, hflat, h4]
  have hread : decFixed32At B.finishBytes (B.finishBytes.length - 4) =
      B.restarts.length := by
    have hpos : (B.buffer ++ (B.restarts.map putFixed32).flatten).length =
        B.finishBytes.length - 4 := by
      simp only [List.length_append, hflat]
      omega
    have h := decFixed32At_append
      (B.buffer ++ (B.restarts.map putFixed32).flatten) B.restarts.length
    rw [hpos] at h
    rw [List.append_assoc] at h
    rw [List.append_assoc] at hbytes
    rw [← hbytes] at h
    rw [h]
    exact Nat.mod_eq_of_lt hR
  simp only [decodeBlock]
  rw [if_neg (by omega), hread, if_neg (by omega)]
  have hdata : B.finishBytes.length - 4 * (B.restarts.length + 1) =
      B.buffer.length := by omega
  rw [hdata]
  have htake : B.finishBytes.take B.buffer.length = B.buffer := by
    rw [hbytes, List.append_assoc]
    exact List.take_left _ _
  rw [htake, hbuf]
  exact decEntries_encodeFrom interval ps 0 [] _ (le_refl _)

/-- C2: for every sequence of pairs with strictly ascending keys (and a
restart interval of at least 1, fewer than `2^32` entries so the fixed32
restart count is exact), decoding the bytes of `BlockBuilder::Finish`
according to the documented entry format and restart-array trailer
reconstructs exactly the input sequence. -/
theorem block_roundtrip (interval : Nat) (ps : List (List Nat × List Nat))
    (hi : 1 ≤ interval) (hasc : StrictAscending ps)
    (hlen : ps.length < 2 ^ 32) :
    decodeBlock ((BlockB.init interval).addAll ps).finishBytes = some ps :=
  decodeBlock_addAll interval ps hi hlen

/-- C2 witness: the spec's two-entry prefix-compression scenario
(`"helloworld"`, `"help"`) decodes back from the finished block. -/
theorem block_roundtrip_witness :
    decodeBlock ((BlockB.init 16).addAll
      [([104, 101, 108, 108, 111, 119, 111, 114, 108, 100], [49]),
       ([104, 101, 108, 112], [50])]).finishBytes =
      some [([104, 101, 108, 108, 111, 119, 111, 114, 108, 100], [49]),
            ([104, 101, 108, 112], [50])] := by
  exact block_roundtrip 16 _ (by omega)
    (List.chain'_cons.mpr ⟨by unfold lexLt; decide, List.chain'_singleton _⟩)
    (by norm_num)

/-- `WriteRawBlock` only touches the file, the status and the offset. -/
theorem TB.writeRawBlock_fields (ext : Ext) (t : TB) (contents : List Nat)
    (ctype : Nat) :
    (t.writeRawBlock ext contents ctype).1.dataBlock = t.dataBlock ∧
    (t.writeRawBlock ext contents ctype).1.pendingIndexEntry =
      t.pendingIndexEntry := by
  unfold TB.writeRawBlock
  rcases hap : t.file.append contents with ⟨s1, f1⟩
  by_cases h1 : s1 = none
  · subst h1
    rcases hap2 : f1.append (trailerOf ext contents ctype) with ⟨s2, f2⟩
    by_cases h2 : s2 = none
    · subst h2; simp [hap, hap2]
    · simp [hap, hap2, h2]
  · simp [hap, h1]

/-- `WriteBlock` resets the written builder and leaves the data block and
the pending-index flag of the rep unchanged. -/
theorem TB.writeBlock_fields (ext : Ext) (t : TB) (b : BlockB) :
    (t.writeBlock ext b).1.dataBlock = t.dataBlock ∧
    (t.writeBlock ext b).1.pendingIndexEntry = t.pendingIndexEntry ∧
    (t.writeBlock ext b).2.1 = b.finish.reset := by
  unfold TB.writeBlock
  rcases hcs : compressSelect ext t.opts.compression b.finishBytes with ⟨c, ty⟩
  rcases hw : t.writeRawBlock ext c ty with ⟨t1, h⟩
  have hf := TB.writeRawBlock_fields ext t c ty
  rw [hw] at hf
  simp only [hcs, hw]
  exact ⟨hf.1, hf.2, trivial⟩

/-- `Flush` preserves the invariant "pending index entry implies empty
data block" (and establishes it outright when it writes a block). -/
theorem TB.flush_pending_inv (ext : Ext) (t : TB)
    (h : t.pendingIndexEntry = true → t.dataBlock.buffer = []) :
    (t.flush ext).pendingIndexEntry = true →
      (t.flush ext).dataBlock.buffer = [] := by
  unfold TB.flush
  by_cases h1 : t.status ≠ none
  · simp only [if_pos h1]; exact h
  · simp only [if_neg h1]
    by_cases h2 : t.dataBlock.isEmpty
    · simp only [if_pos h2]; exact h
    · simp only [if_neg h2]
      rcases hw : t.writeBlock ext t.dataBlock with ⟨t1, db, handle⟩
      have hdb : db = t.dataBlock.finish.reset := by
        have hf := (TB.writeBlock_fields ext t t.dataBlock).2.2
        rw [hw] at hf
        exact hf
      intro _
      split
      · split <;> simp [hdb, BlockB.reset, BlockB.init]
      · split <;> simp [hdb, BlockB.reset, BlockB.init]

/-- `Add` preserves the invariant: it clears the flag before touching the
data block. -/
theorem TB.add_pending_inv (ext : Ext) (t : TB) (k v : List Nat)
    (h : t.pendingIndexEntry = true → t.dataBlock.buffer = []) :
    (t.add ext k v).pendingIndexEntry = true →
      (t.add ext k v).dataBlock.buffer = [] := by
  unfold TB.add
  by_cases h1 : t.status ≠ none
  · simp only [if_pos h1]; exact h
  · simp only [if_neg h1]
    by_cases hp : t.pendingIndexEntry <;>
      simp only [hp, if_true, Bool.false_eq_true, if_false] <;>
      rcases hfb : t.filterB with _ | fb <;>
      simp only [hfb] <;>
      split <;>
      first
        | (apply TB.flush_pending_inv
           intro hcontra
           first
             | exact absurd hcontra hp
             | simp at hcontra)
        | (intro hcontra
           first
             | exact absurd hcontra hp
             | simp at hcontra)

/-- The filter-block step of `Finish` preserves the invariant. -/
theorem TB.finishFilterStep_inv (ext : Ext) (t : TB)
    (h : t.pendingIndexEntry = true → t.dataBlock.buffer = []) :
    (t.finishFilterStep ext).1.pendingIndexEntry = true →
      (t.finishFilterStep ext).1.dataBlock.buffer = [] := by
  unfold TB.finishFilterStep
  rcases hs : t.status with _ | e
  · rcases hfb : t.filterB with _ | fb
    · simp only [hs, hfb]; exact h
    · simp only [hs, hfb]
      have hf := TB.writeRawBlock_fields ext t
        (fb.finishBytes ext.createFilter) kNoCompression
      intro hp
      rw [hf.1]
      exact h (by rw [← hf.2]; exact hp)
  · simp only [hs]; exact h

/-- The meta-index step of `Finish` preserves the invariant. -/
theorem TB.finishMetaStep_inv (ext : Ext) (t : TB) (fh : Nat × Nat)
    (h : t.pendingIndexEntry = true → t.dataBlock.buffer = []) :
    (t.finishMetaStep ext fh).1.pendingIndexEntry = true →
      (t.finishMetaStep ext fh).1.dataBlock.buffer = [] := by
  unfold TB.finishMetaStep
  by_cases hs : t.status = none
  · simp only [if_pos hs]
    set mib := if t.filterB.isSome then
        (BlockB.init t.opts.restartInterval).add ext.filterKey
          (encodeHandle fh)
      else BlockB.init t.opts.restartInterval with hmib
    rcases hw : t.writeBlock ext mib with ⟨t1, b1, h1⟩
    have hf := TB.writeBlock_fields ext t mib
    rw [hw] at hf
    intro hp
    simp only [hw] at hp ⊢
    rw [hf.1]
    exact h (by rw [← hf.2.1]; exact hp)
  · simp only [if_neg hs]; exact h

/-- The index step of `Finish` preserves the invariant (it can only clear
the pending flag). -/
theorem TB.finishIndexStep_inv (ext : Ext) (t : TB)
    (h : t.pendingIndexEntry = true → t.dataBlock.buffer = []) :
    (t.finishIndexStep ext).1.pendingIndexEntry = true →
      (t.finishIndexStep ext).1.dataBlock.buffer = [] := by
  unfold TB.finishIndexStep
  by_cases hs : t.status = none
  · simp only [if_pos hs]
    by_cases hp : t.pendingIndexEntry
    · simp only [hp, if_true]
      obtain ⟨t5, ht5⟩ : ∃ t5 : TB, ({ t with lastKey := ext.succ t.lastKey, indexBlock := t.indexBlock.add (ext.succ t.lastKey) (encodeHandle t.pendingHandle), pendingIndexEntry := false } : TB) = t5 := ⟨_, rfl⟩
      rw [ht5]
      have hp5 : t5.pendingIndexEntry = false := by rw [← ht5]
      have hf := TB.writeBlock_fields ext t5
        (t.indexBlock.add (ext.succ t.lastKey) (encodeHandle t.pendingHandle))
      intro hcontra
      exfalso
      rw [hf.2.1, hp5] at hcontra
      exact Bool.noConfusion hcontra
    · simp only [if_neg hp]
      have hf := TB.writeBlock_fields ext t t.indexBlock
      intro hq
      rw [hf.2.1] at hq
      rw [hf.1]
      exact h hq
  · simp only [if_neg hs]; exact h

/-- The footer step of `Finish` preserves the invariant. -/
theorem TB.finishFooterStep_inv (t : TB) (mh ih : Nat × Nat)
    (h : t.pendingIndexEntry = true → t.dataBlock.buffer = []) :
    (t.finishFooterStep mh ih).pendingIndexEntry = true →
      (t.finishFooterStep mh ih).dataBlock.buffer = [] := by
  unfold TB.finishFooterStep
  by_cases hs : t.status = none
  · simp only [if_pos hs]
    rcases hap : t.file.append (footerBytes mh ih) with ⟨s, f⟩
    by_cases h2 : s = none
    · subst h2; simpa using h
    · simp only [hap]
      rw [if_neg (by simpa using h2)]
      exact h
  · simp only [if_neg hs]; exact h

/-- `Finish` preserves the invariant. -/
theorem TB.finish_pending_inv (ext : Ext) (t : TB)
    (h : t.pendingIndexEntry = true → t.dataBlock.buffer = []) :
    (t.finish ext).pendingIndexEntry = true →
      (t.finish ext).dataBlock.buffer = [] := by
  have h1 := TB.flush_pending_inv ext t h
  have h2 : ({ t.flush ext with closed := true } : TB).pendingIndexEntry = true →
      ({ t.flush ext with closed := true } : TB).dataBlock.buffer = [] := h1
  rcases h3 : ({ t.flush ext with closed := true } : TB).finishFilterStep ext
    with ⟨t3, fh⟩
  rcases h4 : t3.finishMetaStep ext fh with ⟨t4, mh⟩
  rcases h6 : t4.finishIndexStep ext with ⟨t6, ih6⟩
  have i3 := TB.finishFilterStep_inv ext _ h2
  rw [h3] at i3
  have i4 := TB.finishMetaStep_inv ext t3 fh i3
  rw [h4] at i4
  have i6 := TB.finishIndexStep_inv ext t4 i4
  rw [h6] at i6
  show (TB.finish ext t).pendingIndexEntry = true →
    (TB.finish ext t).dataBlock.buffer = []
  unfold TB.finish
  simp only [h3, h4, h6]
  exact TB.finishFooterStep_inv t6 mh ih6 i6

/-- C8: in every state reachable by any sequence of `Add`, `Flush` and
`Finish` calls on a fresh table builder, `pending_index_entry` is true
only when the active data block is empty. -/
theorem pending_index_entry_invariant (ext : Ext) (t : TB)
    (hr : ReachTB ext t) :
    t.pendingIndexEntry = true → t.dataBlock.buffer = [] := by
  induction hr with
  | init opts file => intro hp; simp [TB.init] at hp
  | add t k v _ ih => exact TB.add_pending_inv ext t k v ih
  | flush t _ ih => exact TB.flush_pending_inv ext t ih
  | finish t _ ih => exact TB.finish_pending_inv ext t ih

/-- C8 witness: after one `Add` on a builder whose block-size threshold is
0 (so the add flushes and sets the pending flag), the invariant applied to
that reachable state shows the data block is empty. -/
theorem pending_index_entry_invariant_witness :
    ((TB.init extTriv
        { blockSize := 0, restartInterval := 16, compression := 0, hasFilter := false }
        { written := [], script := [] }).add extTriv [1] [2]).dataBlock.buffer = [] := by
  exact pending_index_entry_invariant extTriv _
    (ReachTB.add _ [1] [2] (ReachTB.init _ _)) (by decide)

/-- `WriteRawBlock` on an error-free file: both appends succeed, the
trailer follows the contents, and the offset advances. -/
theorem TB.writeRawBlock_ok (ext : Ext) (t : TB) (contents : List Nat)
    (ctype : Nat) (w : List Nat) (hw : t.file = { written := w, script := [] }) :
    t.writeRawBlock ext contents ctype =
      ({ t with
          file := { written := w ++ contents ++ trailerOf ext contents ctype,
                    script := [] },
          status := none,
          offset := t.offset + contents.length + kBlockTrailerSize },
       (t.offset, contents.length)) := by
  unfold TB.writeRawBlock
  rw [hw]
  simp [MFile.append]

/-- `WriteBlock` with compression disabled on an error-free file. -/
theorem TB.writeBlock_ok (ext : Ext) (t : TB) (b : BlockB) (w : List Nat)
    (hw : t.file = { written := w, script := [] })
    (hc : t.opts.compression = kNoCompression) :
    t.writeBlock ext b =
      ({ t with
          file := { written := w ++ b.finishBytes ++
                      trailerOf ext b.finishBytes kNoCompression,
                    script := [] },
          status := none,
          offset := t.offset + b.finishBytes.length + kBlockTrailerSize,
          compressedOutput := [] },
       b.finish.reset, (t.offset, b.finishBytes.length)) := by
  unfold TB.writeBlock
  have hsel : compressSelect ext t.opts.compression b.finishBytes =
      (b.finishBytes, kNoCompression) := by
    rw [hc]; rfl
  simp only [hsel, TB.writeRawBlock_ok ext t b.finishBytes kNoCompression w hw]

/-- `Flush` on an OK builder with a non-empty data block, no filter and
compression disabled. -/
theorem TB.flush_ok (ext : Ext) (t : TB) (w : List Nat)
    (hs : t.status = none) (hne : t.dataBlock.isEmpty = false)
    (hfb : t.filterB = none)
    (hw : t.file = { written := w, script := [] })
    (hc : t.opts.compression = kNoCompression) :
    t.flush ext =
      { t with
        file := { written := w ++ t.dataBlock.finishBytes ++
                    trailerOf ext t.dataBlock.finishBytes kNoCompression,
                  script := [] },
        status := none,
        offset := t.offset + t.dataBlock.finishBytes.length +
          kBlockTrailerSize,
        dataBlock := t.dataBlock.finish.reset,
        pendingHandle := (t.offset, t.dataBlock.finishBytes.length),
        pendingIndexEntry := true,
        compressedOutput := [] } := by
  unfold TB.flush
  rw [TB.writeBlock_ok ext t t.dataBlock w hw hc]
  simp [hs, hne, hfb, MFile.flushOp]

/-- The filter step of `Finish` is the identity when no filter policy is
configured. -/
theorem TB.finishFilterStep_none (ext : Ext) (t : TB)
    (hfb : t.filterB = none) :
    t.finishFilterStep ext = (t, (0, 0)) := by
  unfold TB.finishFilterStep
  rcases hs : t.status with _ | e <;> simp [hfb]

/-- The meta-index step with no filter: writes an empty block (8 bytes)
and returns its handle. -/
theorem TB.finishMetaStep_ok (ext : Ext) (t : TB) (fh : Nat × Nat)
    (w : List Nat) (hs : t.status = none) (hfb : t.filterB = none)
    (hw : t.file = { written := w, script := [] })
    (hc : t.opts.compression = kNoCompression) :
    t.finishMetaStep ext fh =
      ({ t with
          file := { written := w ++ emptyBlockBytes ++
                      trailerOf ext emptyBlockBytes kNoCompression,
                    script := [] },
          status := none,
          offset := t.offset + 8 + kBlockTrailerSize,
          compressedOutput := [] },
       (t.offset, 8)) := by
  unfold TB.finishMetaStep
  have hbytes : (BlockB.init t.opts.restartInterval).finishBytes =
      emptyBlockBytes := by
    simp [BlockB.init, BlockB.finishBytes, putFixed32, emptyBlockBytes]
  rw [if_pos hs]
  simp only [hfb, Option.isSome_none, Bool.false_eq_true, if_false,
    TB.writeBlock_ok ext t (BlockB.init t.opts.restartInterval) w hw hc,
    hbytes]
  simp [emptyBlockBytes]

/-- The index step of `Finish` with a pending entry: emits the entry
under the shortened successor and writes the index block. -/
theorem TB.finishIndexStep_ok (ext : Ext) (t : TB) (w : List Nat)
    (hs : t.status = none) (hp : t.pendingIndexEntry = true)
    (hw : t.file = { written := w, script := [] })
    (hc : t.opts.compression = kNoCompression) :
    t.finishIndexStep ext =
      ({ t with
          file := { written := w ++ (t.indexBlock.add (ext.succ t.lastKey)
                        (encodeHandle t.pendingHandle)).finishBytes ++
                      trailerOf ext (t.indexBlock.add (ext.succ t.lastKey)
                        (encodeHandle t.pendingHandle)).finishBytes
                        kNoCompression,
                    script := [] },
          status := none,
          offset := t.offset + (t.indexBlock.add (ext.succ t.lastKey)
              (encodeHandle t.pendingHandle)).finishBytes.length +
              kBlockTrailerSize,
          lastKey := ext.succ t.lastKey,
          indexBlock := (t.indexBlock.add (ext.succ t.lastKey)
              (encodeHandle t.pendingHandle)).finish.reset,
          pendingIndexEntry := false,
          compressedOutput := [] },
       (t.offset,
        (t.indexBlock.add (ext.succ t.lastKey)
          (encodeHandle t.pendingHandle)).finishBytes.length)) := by
  unfold TB.finishIndexStep
  rw [if_pos hs]
  simp only [hp, if_true]
  rw [TB.writeBlock_ok ext ({ t with lastKey := ext.succ t.lastKey, indexBlock := t.indexBlock.add (ext.succ t.lastKey) (encodeHandle t.pendingHandle), pendingIndexEntry := false } : TB) (t.indexBlock.add (ext.succ t.lastKey) (encodeHandle t.pendingHandle)) w hw hc]

/-- The footer step on an OK builder. -/
theorem TB.finishFooterStep_ok (t : TB) (mh ih : Nat × Nat) (w : List Nat)
    (hs : t.status = none)
    (hw : t.file = { written := w, script := [] }) :
    t.finishFooterStep mh ih =
      { t with
        file := { written := w ++ footerBytes mh ih, script := [] },
        status := none,
        offset := t.offset + (footerBytes mh ih).length } := by
  unfold TB.finishFooterStep
  rw [if_pos hs, hw]
  simp [MFile.append]

/-- A varint below 128 is its single byte. -/
theorem putVarint_small (n : Nat) (h : n < 128) : putVarint n = [n] := by
  rw [putVarint_eq, if_pos h]

/-- The common-prefix length against an empty last key is zero. -/
theorem commonLen_nil (k : List Nat) : commonLen [] k = 0 := by
  cases k <;> rfl

/-- `Add` on an OK builder with no pending index entry, no filter and a
data block that stays under the block-size threshold just appends the
entry to the data block. -/
theorem TB.add_ok (ext : Ext) (t : TB) (k v : List Nat)
    (hs : t.status = none) (hp : t.pendingIndexEntry = false)
    (hfb : t.filterB = none)
    (hsize : (t.dataBlock.add k v).sizeEstimate < t.opts.blockSize) :
    t.add ext k v =
      { t with lastKey := k, numEntries := t.numEntries + 1,
               dataBlock := t.dataBlock.add k v } := by
  unfold TB.add
  rw [if_neg (by simp [hs])]
  simp only [hp, Bool.false_eq_true, if_false, hfb]
  rw [if_neg (Nat.not_le.mpr hsize)]

/-- A fresh builder over an always-OK file with the default options. -/
theorem s6_init (ext : Ext) :
    TB.init ext optsDefault { written := [], script := [] } = s6T0 := by
  simp [TB.init, optsDefault, s6T0]

/-- After adding "apple" and "banana" the builder is `s6TB`. -/
theorem s6_adds (ext : Ext) :
    ((TB.init ext optsDefault { written := [], script := [] }).add ext
        appleK [118, 49]).add ext bananaK [118, 50] = s6TB := by
  rw [s6_init]
  rw [TB.add_ok ext s6T0 appleK [118, 49] rfl rfl rfl (by decide)]
  rw [TB.add_ok ext ({ s6T0 with lastKey := appleK, numEntries := s6T0.numEntries + 1, dataBlock := s6T0.dataBlock.add appleK [118, 49] } : TB) bananaK [118, 50] rfl rfl rfl (by decide)]
  decide

/-- The data-block flush at the start of `Finish` on the S6 builder. -/
theorem s6_flush (ext : Ext) :
    ({ s6TB.flush ext with closed := true } : TB) = s6T2 ext := by
  rw [TB.flush_ok ext s6TB [] rfl (by decide) rfl rfl rfl]
  have hdb : s6TB.dataBlock.finishBytes = s6DataBlock := by decide
  have hrs : s6TB.dataBlock.finish.reset = BlockB.init 16 := by decide
  rw [hdb, hrs]
  have hlen : s6DataBlock.length = 29 := by decide
  rw [hlen]
  simp [s6T2, s6TB, s6W1, kNoCompression, kBlockTrailerSize]

/-- The meta-index write of `Finish` on the S6 builder: an empty block at
offset 34 of size 8. -/
theorem s6_meta (ext : Ext) :
    (s6T2 ext).finishMetaStep ext (0, 0) = (s6T4 ext, (34, 8)) := by
  rw [TB.finishMetaStep_ok ext (s6T2 ext) (0, 0) (s6W1 ext) rfl rfl rfl rfl]
  simp [s6T4, s6T2, s6W2, kNoCompression, kBlockTrailerSize]

/-- The one-entry S6 index block's bytes. -/
theorem s6_indexBytes (ext : Ext) :
    ((BlockB.init 1).add (ext.succ bananaK)
      (encodeHandle (0, 29))).finishBytes = s6IndexBlock ext := by
  have he : encodeHandle (0, 29) = [0, 29] := by decide
  have h0 : putVarint 0 = [0] := by decide
  have h2 : putVarint 2 = [2] := by decide
  rw [he]
  simp [BlockB.init, BlockB.add, BlockB.finishBytes, commonLen_nil,
    s6IndexBlock, putFixed32, h0, h2, List.append_assoc]

/-- The index-block write of `Finish` on the S6 builder: the pending
data-block handle is emitted under the shortened successor of "banana"
and the block lands at offset 47. -/
theorem s6_index (ext : Ext) :
    (s6T4 ext).finishIndexStep ext =
      (s6T6 ext, (47, (s6IndexBlock ext).length)) := by
  have hib : (s6T4 ext).indexBlock = BlockB.init 1 := rfl
  have hlk : (s6T4 ext).lastKey = bananaK := rfl
  have hph : (s6T4 ext).pendingHandle = (0, 29) := rfl
  rw [TB.finishIndexStep_ok ext (s6T4 ext) (s6W2 ext) rfl rfl rfl rfl]
  rw [hib, hlk, hph, s6_indexBytes ext]
  have hrst : ((BlockB.init 1).add (ext.succ bananaK)
      (encodeHandle (0, 29))).finish.reset = BlockB.init 1 := rfl
  rw [hrst]
  simp [s6T6, s6T4, s6T2, s6W3, kNoCompression, kBlockTrailerSize]

/-- The footer write of `Finish` on the S6 builder. -/
theorem s6_footerStep (ext : Ext) :
    (s6T6 ext).finishFooterStep (34, 8) (47, (s6IndexBlock ext).length) =
      s6TF ext := by
  rw [TB.finishFooterStep_ok (s6T6 ext) (34, 8)
    (47, (s6IndexBlock ext).length) (s6W3 ext) rfl rfl]
  simp [s6TF, s6T6, s6T4, s6T2, s6W4, s6Footer]

/-- The whole S6 build evaluates to the final state `s6TF`. -/
theorem s6_run_eq (ext : Ext) : s6Run ext = s6TF ext := by
  have h1 := s6_flush ext
  have h2 : (s6T2 ext).finishFilterStep ext = (s6T2 ext, (0, 0)) :=
    TB.finishFilterStep_none ext (s6T2 ext) rfl
  have h3 := s6_meta ext
  have h4 := s6_index ext
  have h5 := s6_footerStep ext
  unfold s6Run
  rw [s6_adds ext]
  unfold TB.finish
  simp only [h1, h2, h3, h4, h5]

/-- C5: counterexample to the claimed one-entry meta-index block: in the
S6 build the 8 bytes at the meta-index handle's offset 34 are an empty
block (a single restart at 0 and a restart count of 1), and that block
decodes to zero entries, not one. -/
theorem table_shape_metaindex_counterexample :
    ((s6Run extS6).file.written.drop 34).take 8 = emptyBlockBytes ∧
    decodeBlock emptyBlockBytes = some [] := by
  rw [s6_run_eq extS6]
  decide

/-- C5 (amended): building a table from "apple" and "banana" with no
filter policy and no compression yields OK status and a file that is
exactly the 29-byte data block plus 5-byte trailer, the zero-entry
meta-index block plus trailer, the one-entry index block (key = short
successor of "banana", value = the data block's handle `(0, 29)`) plus
trailer, and the 48-byte footer ending in the magic number
`0xdb4775248b80fb57`, provided the comparator's short successor stays
below 101 bytes. -/
theorem table_shape_amended (ext : Ext)
    (hsk : (ext.succ bananaK).length ≤ 100) : s6Shape ext := by
  have hrun := s6_run_eq ext
  have hsklt : (ext.succ bananaK).length < 128 := by omega
  have hlenIB : (s6IndexBlock ext).length =
      13 + (ext.succ bananaK).length := by
    simp only [s6IndexBlock, putVarint_small _ hsklt, List.length_append,
      List.length_cons, List.length_nil]
    omega
  have hIBlt : (s6IndexBlock ext).length < 128 := by omega
  have h34 : putVarint 34 = [34] := by decide
  have h8 : putVarint 8 = [8] := by decide
  have h47 : putVarint 47 = [47] := by decide
  have hh : encodeHandle (34, 8) ++
      encodeHandle (47, (s6IndexBlock ext).length) =
      [34, 8, 47, (s6IndexBlock ext).length] := by
    simp [encodeHandle, h34, h8, h47, putVarint_small _ hIBlt]
  have hfoot : s6Footer ext =
      ([34, 8, 47, (s6IndexBlock ext).length] ++ List.replicate 36 0) ++
        (putFixed32 0x8b80fb57 ++ putFixed32 0xdb477524) := by
    simp only [s6Footer, footerBytes, hh]
    simp [List.append_assoc]
  have hflen : (s6Footer ext).length = 48 := by
    rw [hfoot]
    simp [List.length_append, List.length_replicate, putFixed32]
  have hfdrop : (s6Footer ext).drop 40 =
      putFixed32 0x8b80fb57 ++ putFixed32 0xdb477524 := by
    rw [hfoot]
    have hl40 : ([34, 8, 47, (s6IndexBlock ext).length] ++
        List.replicate 36 0).length = 40 := by
      simp
    rw [← hl40, List.drop_left]
  have haddOne : (BlockB.init 1).addAll
      [(ext.succ bananaK, encodeHandle (0, 29))] =
      (BlockB.init 1).add (ext.succ bananaK) (encodeHandle (0, 29)) := rfl
  have hdecIB : decodeBlock (s6IndexBlock ext) =
      some [(ext.succ bananaK, encodeHandle (0, 29))] := by
    rw [← s6_indexBytes ext, ← haddOne]
    exact decodeBlock_addAll 1 _ (by norm_num) (by norm_num)
  unfold s6Shape
  refine ⟨?_, ?_, ?_, ?_, ?_, ?_, ?_, ?_, ?_, ?_⟩
  · rw [hrun]; rfl
  · rw [hrun]; rfl
  · rw [hrun]
    show s6W4 ext = _
    simp [s6W4, s6W3, s6W2, s6W1, List.append_assoc]
  · decide
  · decide
  · exact hdecIB
  · decide
  · simp [trailerOf, putFixed32]
  · exact hflen
  · exact hfdrop

/-- C5 witness: the amended table shape at the concrete S6 collaborators
(short successor "c"). -/
theorem table_shape_amended_witness :
    (extS6.succ bananaK).length ≤ 100 ∧ s6Shape extS6 :=
  ⟨by decide, table_shape_amended extS6 (by decide)⟩

/-- `SetNext` does not change the number of nodes. -/
theorem SL.setNext_nodes_length {α : Type} (s : SL α) (r : Ref) (L : Nat)
    (v : Option Nat) : (s.setNext r L v).nodes.length = s.nodes.length := by
  cases r <;> simp [SL.setNext, List.length_modify]

/-- `SetNext` does not change the head's array length. -/
theorem SL.setNext_headNext_length {α : Type} (s : SL α) (r : Ref) (L : Nat)
    (v : Option Nat) :
    (s.setNext r L v).headNext.length = s.headNext.length := by
  cases r <;> simp [SL.setNext, List.length_set]

/-- `SetNext` does not change `max_height_`. -/
theorem SL.setNext_maxHeight {α : Type} (s : SL α) (r : Ref) (L : Nat)
    (v : Option Nat) : (s.setNext r L v).maxHeight = s.maxHeight := by
  cases r <;> rfl

/-- `SetNext` does not change any key. -/
theorem SL.setNext_keyI {α : Type} [Inhabited α] (s : SL α) (r : Ref)
    (L : Nat) (v : Option Nat) (m : Nat) :
    (s.setNext r L v).keyI m = s.keyI m := by
  cases r with
  | hd => rfl
  | nd i =>
    simp only [SL.setNext, SL.keyI, List.get?_eq_getElem?, List.getElem?_modify]
    cases s.nodes[m]? with
    | none => by_cases h : i = m <;> simp [h]
    | some nd0 => by_cases h : i = m <;> simp [h]

/-- `SetNext` does not change any node's height. -/
theorem SL.setNext_heightAt {α : Type} (s : SL α) (r : Ref) (L : Nat)
    (v : Option Nat) (m : Nat) :
    (s.setNext r L v).heightAt m = s.heightAt m := by
  cases r with
  | hd => rfl
  | nd i =>
    simp only [SL.setNext, SL.heightAt, List.get?_eq_getElem?,
      List.getElem?_modify]
    cases s.nodes[m]? with
    | none => by_cases h : i = m <;> simp [h]
    | some nd0 => by_cases h : i = m <;> simp [h, List.length_set]

/-- `SetNext` does not change the list of keys. -/
theorem SL.setNext_map_key {α : Type} (s : SL α) (r : Ref) (L : Nat)
    (v : Option Nat) :
    (s.setNext r L v).nodes.map SLNode.key = s.nodes.map SLNode.key := by
  cases r with
  | hd => rfl
  | nd i =>
    simp only [SL.setNext]
    apply List.ext_getElem?
    intro m
    simp only [List.getElem?_map, List.getElem?_modify]
    cases s.nodes[m]? with
    | none => by_cases h : i = m <;> simp [h]
    | some nd0 => by_cases h : i = m <;> simp [h]

/-- Reading back the link just written by `SetNext` on the head. -/
theorem SL.nextOf_setNext_hd {α : Type} (s : SL α) (L : Nat) (v : Option Nat)
    (hL : L < s.headNext.length) :
    (s.setNext Ref.hd L v).nextOf Ref.hd L = v := by
  simp [SL.setNext, SL.nextOf, List.get?_eq_getElem?, List.getElem?_set, hL]

/-- Reading back the link just written by `SetNext` on a node. -/
theorem SL.nextOf_setNext_nd {α : Type} (s : SL α) (i L : Nat)
    (v : Option Nat) (hi : i < s.nodes.length) (hL : L < s.heightAt i) :
    (s.setNext (Ref.nd i) L v).nextOf (Ref.nd i) L = v := by
  obtain ⟨nd0, hnd0⟩ : ∃ nd0, s.nodes[i]? = some nd0 := by
    rw [List.getElem?_eq_getElem hi]; exact ⟨_, rfl⟩
  have hL' : L < nd0.next.length := by
    have hh : s.heightAt i = nd0.next.length := by
      simp [SL.heightAt, List.get?_eq_getElem?, hnd0]
    omega
  simp [SL.setNext, SL.nextOf, List.get?_eq_getElem?, List.getElem?_modify_eq,
    hnd0, List.getElem?_set, hL']

/-- `SetNext` leaves every other position/level pair unchanged. -/
theorem SL.nextOf_setNext_ne {α : Type} (s : SL α) (r : Ref) (L : Nat)
    (v : Option Nat) (r' : Ref) (L' : Nat) (h : r' ≠ r ∨ L' ≠ L) :
    (s.setNext r L v).nextOf r' L' = s.nextOf r' L' := by
  cases r with
  | hd =>
    cases r' with
    | nd i => rfl
    | hd =>
      have hL : L' ≠ L := by
        rcases h with h | h
        · exact absurd rfl h
        · exact h
      simp only [SL.setNext, SL.nextOf, List.get?_eq_getElem?,
        List.getElem?_set, if_neg (show ¬ L = L' from fun hh => hL hh.symm)]
  | nd i =>
    cases r' with
    | hd => rfl
    | nd i' =>
      by_cases hii : i = i'
      · subst hii
        have hL : L' ≠ L := by
          rcases h with h | h
          · exact absurd rfl h
          · exact h
        simp only [SL.setNext, SL.nextOf, List.get?_eq_getElem?,
          List.getElem?_modify_eq]
        cases s.nodes[i]? with
        | none => rfl
        | some nd0 =>
          simp [List.getElem?_set,
            if_neg (show ¬ L = L' from fun hh => hL hh.symm)]
      · simp only [SL.setNext, SL.nextOf, List.get?_eq_getElem?,
          List.getElem?_modify_ne _ s.nodes hii]

/-- `RandomHeight` returns a height in `[1, kMaxHeight]`. -/
theorem randomHeightAux_bounds (rv : Nat → Nat) :
    ∀ (fuel pos h : Nat), 1 ≤ h → h ≤ kMaxHeight →
    1 ≤ (randomHeightAux rv pos h fuel).1 ∧
    (randomHeightAux rv pos h fuel).1 ≤ kMaxHeight := by
  intro fuel
  induction fuel with
  | zero =>
    intro pos h h1 h2
    simpa [randomHeightAux] using ⟨h1, h2⟩
  | succ f ih =>
    intro pos h h1 h2
    simp only [randomHeightAux]
    by_cases hlt : h < kMaxHeight
    · simp only [if_pos hlt]
      by_cases hz : rv pos % 4 = 0
      · simp only [if_pos hz]
        exact ih (pos + 1) (h + 1) (by omega) (by omega)
      · simp only [if_neg hz]
        exact ⟨h1, h2⟩
    · simp only [if_neg hlt]
      exact ⟨h1, h2⟩

theorem randomHeight_bounds (rv : Nat → Nat) (pos : Nat) :
    1 ≤ (randomHeight rv pos).1 ∧ (randomHeight rv pos).1 ≤ kMaxHeight :=
  randomHeightAux_bounds rv kMaxHeight pos 1 (by omega) (by decide)

/-- Folding head-writes over a list of indices: pointwise description. -/
theorem fillFold_getD (l : List Nat) : ∀ (prev : List Ref) (j : Nat),
    j < prev.length →
    (l.foldl (fun p i => p.set i Ref.hd) prev).getD j Ref.hd =
      if j ∈ l then Ref.hd else prev.getD j Ref.hd := by
  induction l with
  | nil => intro prev j hj; simp
  | cons a l ih =>
    intro prev j hj
    rw [List.foldl_cons, ih (prev.set a Ref.hd) j (by simp [List.length_set, hj])]
    by_cases hjl : j ∈ l
    · simp [hjl]
    · by_cases hja : j = a
      · subst hja
        simp [hjl, List.getD_eq_getElem?_getD, List.getElem?_set, hj]
      · simp only [hjl, if_false, List.mem_cons, hja, false_or]
        rw [List.getD_eq_getElem?_getD, List.getElem?_set,
          if_neg (show ¬ a = j from fun hh => hja hh.symm),
          ← List.getD_eq_getElem?_getD]

theorem fillFold_length (l : List Nat) : ∀ prev : List Ref,
    (l.foldl (fun p i => p.set i Ref.hd) prev).length = prev.length := by
  induction l with
  | nil => intro prev; rfl
  | cons a l ih => intro prev; rw [List.foldl_cons, ih, List.length_set]

/-- The head-filling loop of `Insert`, pointwise. -/
theorem fillPrevHd_getD (prev : List Ref) (a b j : Nat)
    (hj : j < prev.length) :
    (fillPrevHd prev a b).getD j Ref.hd =
      if a ≤ j ∧ j < b then Ref.hd else prev.getD j Ref.hd := by
  unfold fillPrevHd
  rw [fillFold_getD _ prev j hj]
  have hiff : j ∈ List.range' a (b - a) ↔ a ≤ j ∧ j < b := by
    rw [List.mem_range'_1]; omega
  simp only [hiff]

theorem fillPrevHd_length (prev : List Ref) (a b : Nat) :
    (fillPrevHd prev a b).length = prev.length := fillFold_length _ _

/-- Key membership in terms of `keyI`. -/
theorem SL.keyI_mem_iff {α : Type} [Inhabited α] (s : SL α) (K : α) :
    (∃ i, i < s.nodes.length ∧ s.keyI i = K) ↔
      K ∈ s.nodes.map SLNode.key := by
  constructor
  · rintro ⟨i, hi, hik⟩
    obtain ⟨nd0, hnd0⟩ : ∃ nd0, s.nodes[i]? = some nd0 := by
      rw [List.getElem?_eq_getElem hi]; exact ⟨_, rfl⟩
    have hkey : s.keyI i = nd0.key := by
      simp [SL.keyI, List.get?_eq_getElem?, hnd0]
    rw [← hik, hkey]
    exact List.mem_map_of_mem _ (List.getElem?_mem hnd0)
  · intro hmem
    obtain ⟨nd0, hnd0mem, hnd0key⟩ := List.mem_map.mp hmem
    obtain ⟨j, hj, hjeq⟩ := List.mem_iff_getElem.mp hnd0mem
    exact ⟨j, hj, by
      simp [SL.keyI, List.get?_eq_getElem?, List.getElem?_eq_getElem hj,
        hjeq, hnd0key]⟩

/-- A rightward move of `FindGreaterOrEqual` strictly shrinks the set of
nodes ahead of the traversal position. -/
theorem SL.ahead_step {α : Type} [LinearOrder α] [Inhabited α] (s : SL α)
    (x : Ref) (j : Nat) (hjn : j < s.nodes.length)
    (hstep : s.aheadB x j = true) :
    (s.ahead (Ref.nd j)).card < (s.ahead x).card := by
  apply Finset.card_lt_card
  rw [Finset.ssubset_def]
  constructor
  · intro m hm
    rw [SL.ahead, Finset.mem_filter] at hm ⊢
    refine ⟨hm.1, ?_⟩
    have hmj : s.keyI j < s.keyI m := by
      have := hm.2
      simpa [SL.aheadB] using this
    cases x with
    | hd => simp [SL.aheadB]
    | nd p =>
      have hpj : s.keyI p < s.keyI j := by simpa [SL.aheadB] using hstep
      simp [SL.aheadB]
      exact lt_trans hpj hmj
  · intro hsub
    have hjmem : j ∈ s.ahead x := by
      rw [SL.ahead, Finset.mem_filter]
      exact ⟨Finset.mem_range.mpr hjn, hstep⟩
    have hjmem' := hsub hjmem
    rw [SL.ahead, Finset.mem_filter] at hjmem'
    have := hjmem'.2
    simp [SL.aheadB] at this

/-- The descent loop of `FindGreaterOrEqual`: with valid links, enough
fuel and a position below `key`, it fills `prev` with well-formed
predecessors at every level and returns the level-0 successor of the
final position. -/
theorem SL.fgeAux_spec {α : Type} [LinearOrder α] [Inhabited α]
    (s : SL α) (K : α)
    (hvalhd : ∀ L j, s.nextOf Ref.hd L = some j →
      j < s.nodes.length ∧ L < s.heightAt j)
    (hvalnd : ∀ i L j, i < s.nodes.length → s.nextOf (Ref.nd i) L = some j →
      j < s.nodes.length ∧ L < s.heightAt j ∧ s.keyI i < s.keyI j) :
    ∀ (fuel : Nat) (x : Ref) (level : Nat) (prev : List Ref),
    (x = Ref.hd ∨ ∃ p, x = Ref.nd p ∧ p < s.nodes.length ∧ s.keyI p < K ∧
      level < s.heightAt p) →
    level < kMaxHeight →
    prev.length = kMaxHeight →
    (∀ i, level < i → i < kMaxHeight → s.prevOK K i (prev.getD i Ref.hd)) →
    level + 1 + (s.ahead x).card ≤ fuel →
    (SL.fgeAux s K x level prev fuel).2.length = kMaxHeight ∧
    (∀ i, i < kMaxHeight →
      s.prevOK K i ((SL.fgeAux s K x level prev fuel).2.getD i Ref.hd)) ∧
    (SL.fgeAux s K x level prev fuel).1 =
      s.nextOf ((SL.fgeAux s K x level prev fuel).2.getD 0 Ref.hd) 0 := by
  intro fuel
  induction fuel with
  | zero =>
    intro x level prev hx hlev hplen hupper hfuel
    omega
  | succ f ih =>
    intro x level prev hx hlev hplen hupper hfuel
    cases hafter : s.keyIsAfterNode K (s.nextOf x level) with
    | true =>
      obtain ⟨j, hn⟩ : ∃ j, s.nextOf x level = some j := by
        cases hn0 : s.nextOf x level with
        | none => rw [hn0] at hafter; simp [SL.keyIsAfterNode] at hafter
        | some j => exact ⟨j, rfl⟩
      have hjK : s.keyI j < K := by
        rw [hn] at hafter
        simpa [SL.keyIsAfterNode] using hafter
      have hjv : j < s.nodes.length ∧ level < s.heightAt j := by
        rcases hx with hxh | ⟨p, hxp, hp, _, _⟩
        · subst hxh; exact hvalhd level j hn
        · subst hxp
          obtain ⟨a, b, _⟩ := hvalnd p level j hp hn
          exact ⟨a, b⟩
      have hcard : (s.ahead (Ref.nd j)).card < (s.ahead x).card := by
        apply SL.ahead_step s x j hjv.1
        rcases hx with hxh | ⟨p, hxp, hp, hpK, _⟩
        · subst hxh; rfl
        · subst hxp
          have hlt : s.keyI p < s.keyI j := (hvalnd p level j hp hn).2.2
          simp [SL.aheadB, hlt]
      have hstep : SL.fgeAux s K x level prev (f + 1) =
          SL.fgeAux s K (Ref.nd j) level prev f := by
        simp [SL.fgeAux, hn, SL.keyIsAfterNode, hjK]
      rw [hstep]
      exact ih (Ref.nd j) level prev
        (Or.inr ⟨j, rfl, hjv.1, hjK, hjv.2⟩) hlev hplen hupper (by omega)
    | false =>
      have hxOK : s.prevOK K level x := by
        refine ⟨?_, hafter⟩
        rcases hx with hxh | ⟨p, hxp, hp, hpK, hph⟩
        · exact Or.inl hxh
        · exact Or.inr ⟨p, hxp, hp, hpK, hph⟩
      cases level with
      | zero =>
        have hstep : SL.fgeAux s K x 0 prev (f + 1) =
            (s.nextOf x 0, prev.set 0 x) := by
          simp [SL.fgeAux, hafter]
        rw [hstep]
        have hget0 : (prev.set 0 x).getD 0 Ref.hd = x := by
          rw [List.getD_eq_getElem?_getD, List.getElem?_set]
          simp [show 0 < prev.length by omega]
        refine ⟨by simp [List.length_set, hplen], ?_, by rw [hget0]⟩
        intro i hi
        rcases Nat.eq_zero_or_pos i with hi0 | hipos
        · subst hi0; rw [hget0]; exact hxOK
        · have hgi : (prev.set 0 x).getD i Ref.hd = prev.getD i Ref.hd := by
            rw [List.getD_eq_getElem?_getD, List.getElem?_set,
              if_neg (show ¬ 0 = i by omega), ← List.getD_eq_getElem?_getD]
          rw [hgi]
          exact hupper i hipos hi
      | succ l =>
        have hstep : SL.fgeAux s K x (l + 1) prev (f + 1) =
            SL.fgeAux s K x l (prev.set (l + 1) x) f := by
          simp [SL.fgeAux, hafter]
        rw [hstep]
        refine ih x l (prev.set (l + 1) x) ?_ (by omega)
          (by simp [List.length_set, hplen]) ?_ (by omega)
        · rcases hx with hxh | ⟨p, hxp, hp, hpK, hph⟩
          · exact Or.inl hxh
          · exact Or.inr ⟨p, hxp, hp, hpK, by omega⟩
        · intro i hli hi
          by_cases hil : i = l + 1
          · subst hil
            have hgl : (prev.set (l + 1) x).getD (l + 1) Ref.hd = x := by
              rw [List.getD_eq_getElem?_getD, List.getElem?_set]
              simp [show l + 1 < prev.length by omega]
            rw [hgl]
            exact hxOK
          · have hgi : (prev.set (l + 1) x).getD i Ref.hd =
                prev.getD i Ref.hd := by
              rw [List.getD_eq_getElem?_getD, List.getElem?_set,
                if_neg (show ¬ l + 1 = i from fun hh => hil hh.symm),
                ← List.getD_eq_getElem?_getD]
            rw [hgi]
            exact hupper i (by omega) hi

/-- `FindGreaterOrEqual(key, prev)` on a well-formed list: `prev` is
well-formed at every level and the result is the level-0 successor of
`prev[0]`. -/
theorem SL.fge_spec {α : Type} [LinearOrder α] [Inhabited α] (s : SL α)
    (K : α) (hwf : s.WF) :
    (s.fge K).2.length = kMaxHeight ∧
    (∀ i, i < kMaxHeight → s.prevOK K i ((s.fge K).2.getD i Ref.hd)) ∧
    (s.fge K).1 = s.nextOf ((s.fge K).2.getD 0 Ref.hd) 0 := by
  obtain ⟨h1, h2, h3, h4, h5, h6, h7, h8, h9⟩ := hwf
  have hcard : (s.ahead Ref.hd).card ≤ s.nodes.length := by
    calc (s.ahead Ref.hd).card ≤ (Finset.range s.nodes.length).card :=
          Finset.card_filter_le _ _
      _ = s.nodes.length := Finset.card_range _
  have hrep : ∀ i, i < kMaxHeight →
      (List.replicate kMaxHeight Ref.hd).getD i Ref.hd = Ref.hd := by
    intro i hi
    rw [List.getD_eq_getElem?_getD, List.getElem?_replicate]
    simp [hi]
  simp only [SL.fge]
  exact SL.fgeAux_spec s K h5 h6 (s.nodes.length + kMaxHeight + 1) Ref.hd
    (s.maxHeight - 1) (List.replicate kMaxHeight Ref.hd)
    (Or.inl rfl) (by omega) (by simp)
    (by intro i hi hik
        rw [hrep i hik]
        refine ⟨Or.inl rfl, ?_⟩
        have hnone : s.nextOf Ref.hd i = none := h3 i (by omega)
        rw [hnone]
        rfl)
    (by omega)

/-- `Contains(key)` on a well-formed list is exactly key membership. -/
theorem SL.contains_iff {α : Type} [LinearOrder α] [Inhabited α] (s : SL α)
    (K : α) (hwf : s.WF) :
    s.contains K = true ↔ ∃ i, i < s.nodes.length ∧ s.keyI i = K := by
  have hwf' := hwf
  obtain ⟨h1, h2, h3, h4, h5, h6, h7, h8, h9⟩ := hwf'
  obtain ⟨hplen, hprev, hres⟩ := SL.fge_spec s K hwf
  have hy0 : s.prevOK K 0 ((s.fge K).2.getD 0 Ref.hd) := hprev 0 (by decide)
  obtain ⟨hypos, hyafter⟩ := hy0
  obtain ⟨lo, hzs, hcover⟩ :
      ∃ lo, s.zeroSucc lo (s.nextOf ((s.fge K).2.getD 0 Ref.hd) 0) ∧
        ∀ m, m < s.nodes.length → K ≤ s.keyI m → gtLo lo (s.keyI m) := by
    rcases hypos with hyh | ⟨p, hyp, hp, hpK, _⟩
    · rw [hyh]
      exact ⟨none, h8, fun m hm _ => trivial⟩
    · rw [hyp]
      exact ⟨some (s.keyI p), h9 p hp,
        fun m hm hKm => by simpa [gtLo] using lt_of_lt_of_le hpK hKm⟩
  unfold SL.contains
  rw [hres]
  cases hv : s.nextOf ((s.fge K).2.getD 0 Ref.hd) 0 with
  | none =>
    rw [hv] at hzs
    simp only [Bool.false_eq_true, false_iff]
    rintro ⟨i, hi, hik⟩
    rcases hzs with ⟨_, hno⟩ | ⟨j, hj, _⟩
    · exact hno i hi (hcover i hi (le_of_eq hik.symm))
    · exact Option.noConfusion hj
  | some j =>
    rw [hv] at hzs hyafter
    have hKj : K ≤ s.keyI j := by
      have := hyafter
      simp only [SL.keyIsAfterNode, decide_eq_false_iff_not] at this
      exact not_lt.mp this
    show decide (s.keyI j = K) = true ↔ _
    rw [decide_eq_true_eq]
    rcases hzs with ⟨hcontra, _⟩ | ⟨j', hj', hjn, hjlo, hjmin⟩
    · exact Option.noConfusion hcontra
    · have hjj : j' = j := (Option.some.inj hj').symm
      subst hjj
      constructor
      · intro hjK
        exact ⟨j', hjn, hjK⟩
      · rintro ⟨m, hm, hmK⟩
        have hg : gtLo lo (s.keyI m) := hcover m hm (le_of_eq hmK.symm)
        have hle : s.keyI j' ≤ s.keyI m := hjmin m hm hg
        rw [hmK] at hle
        exact le_antisymm hle hKj

/-- `Insert` in explicit form: find the predecessors, fill the new head
levels, bump the height, append the node and run the link-in loop. -/
theorem SL.insert_eq {α : Type} [LinearOrder α] [Inhabited α]
    (rv : Nat → Nat) (s : SL α) (K : α) :
    s.insert rv K = (List.range (randomHeight rv s.rpos).1).foldl
      (fun acc i => acc.linkStep
        (if (randomHeight rv s.rpos).1 > s.maxHeight
         then fillPrevHd (s.fge K).2 s.maxHeight (randomHeight rv s.rpos).1
         else (s.fge K).2)
        s.nodes.length i)
      { (if (randomHeight rv s.rpos).1 > s.maxHeight
         then { s with maxHeight := (randomHeight rv s.rpos).1 } else s) with
        nodes := s.nodes ++
          [{ key := K, next := List.replicate (randomHeight rv s.rpos).1 none }],
        rpos := (randomHeight rv s.rpos).2 } := by
  unfold SL.insert
  by_cases hh : (randomHeight rv s.rpos).1 > s.maxHeight <;> simp [hh]

/-- Linking a node in preserves the list of keys. -/
theorem SL.linkFold_map_key {α : Type} [Inhabited α] (prev : List Ref)
    (newIdx : Nat) :
    ∀ (l : List Nat) (acc : SL α),
    ((l.foldl (fun a i => a.linkStep prev newIdx i) acc).nodes.map
      SLNode.key) = acc.nodes.map SLNode.key := by
  intro l
  induction l with
  | nil => intro acc; rfl
  | cons a l ih =>
    intro acc
    rw [List.foldl_cons, ih]
    simp [SL.linkStep, SL.setNext_map_key]

/-- `Insert(K)` appends exactly one node with key `K`. -/
theorem SL.insert_keys {α : Type} [LinearOrder α] [Inhabited α]
    (rv : Nat → Nat) (s : SL α) (K : α) :
    (s.insert rv K).nodes.map SLNode.key = s.nodes.map SLNode.key ++ [K] := by
  rw [SL.insert_eq, SL.linkFold_map_key]
  by_cases hh : (randomHeight rv s.rpos).1 > s.maxHeight <;> simp [hh]

/-- The link-in loop of `Insert`: after processing levels `[0, t)` the
state agrees with the start state everywhere except that at each
processed level the new node took over the predecessor's old link and
the predecessor now points at the new node. -/
theorem SL.linkFold_spec {α : Type} [LinearOrder α] [Inhabited α]
    (s2 : SL α) (prev1 : List Ref) (nn hh : Nat)
    (hs2len : s2.nodes.length = nn + 1)
    (hs2hn : s2.headNext.length = kMaxHeight)
    (hh12 : hh ≤ kMaxHeight)
    (hs2htN : s2.heightAt nn = hh)
    (hprevpos : ∀ i, i < hh → prev1.getD i Ref.hd = Ref.hd ∨
      ∃ p, prev1.getD i Ref.hd = Ref.nd p ∧ p < nn ∧ i < s2.heightAt p) :
    ∀ t, t ≤ hh →
    (SL.linkAll s2 prev1 nn t).nodes.length = nn + 1 ∧
    (SL.linkAll s2 prev1 nn t).headNext.length = kMaxHeight ∧
    (SL.linkAll s2 prev1 nn t).maxHeight = s2.maxHeight ∧
    (∀ m, (SL.linkAll s2 prev1 nn t).keyI m = s2.keyI m) ∧
    (∀ m, (SL.linkAll s2 prev1 nn t).heightAt m = s2.heightAt m) ∧
    (∀ r L, t ≤ L →
      (SL.linkAll s2 prev1 nn t).nextOf r L = s2.nextOf r L) ∧
    (∀ L, L < t → (SL.linkAll s2 prev1 nn t).nextOf (Ref.nd nn) L =
      s2.nextOf (prev1.getD L Ref.hd) L) ∧
    (∀ L, L < t →
      (SL.linkAll s2 prev1 nn t).nextOf (prev1.getD L Ref.hd) L =
        some nn) ∧
    (∀ r L, L < t → r ≠ Ref.nd nn → r ≠ prev1.getD L Ref.hd →
      (SL.linkAll s2 prev1 nn t).nextOf r L = s2.nextOf r L) := by
  intro t
  induction t with
  | zero =>
    intro ht
    exact ⟨hs2len, hs2hn, rfl, fun m => rfl, fun m => rfl,
      fun r L _ => rfl, fun L hL => absurd hL (by omega),
      fun L hL => absurd hL (by omega),
      fun r L hL _ _ => absurd hL (by omega)⟩
  | succ t ih =>
    intro ht
    obtain ⟨ihl, ihhn, ihmh, ihk, ihh, ih6, ih7, ih8, ih9⟩ := ih (by omega)
    have hstep : SL.linkAll s2 prev1 nn (t + 1) =
        ((SL.linkAll s2 prev1 nn t).setNext (Ref.nd nn) t
          ((SL.linkAll s2 prev1 nn t).nextOf (prev1.getD t Ref.hd) t)).setNext
          (prev1.getD t Ref.hd) t (some nn) := by
      rw [SL.linkAll, List.range_succ, List.foldl_append, List.foldl_cons,
        List.foldl_nil]
      rfl
    set st := SL.linkAll s2 prev1 nn t with hst
    set p := prev1.getD t Ref.hd with hp
    have hpc := hprevpos t (by omega)
    rw [← hp] at hpc
    have hpne : p ≠ Ref.nd nn := by
      rcases hpc with hph | ⟨pp, hpp, hppn, _⟩
      · rw [hph]; intro hcon; exact Ref.noConfusion hcon
      · rw [hpp]; intro hcon; injection hcon with hcon'; omega
    have hnn : nn < st.nodes.length := by omega
    have hts : t < st.heightAt nn := by rw [ihh nn, hs2htN]; omega
    have ha : ∀ r L, (L ≠ t ∨ (r ≠ Ref.nd nn ∧ r ≠ p)) →
        ((st.setNext (Ref.nd nn) t (st.nextOf p t)).setNext p t
          (some nn)).nextOf r L = st.nextOf r L := by
      intro r L hC
      rcases hC with hL | ⟨hr1, hr2⟩
      · rw [SL.nextOf_setNext_ne _ _ _ _ _ _ (Or.inr hL),
          SL.nextOf_setNext_ne _ _ _ _ _ _ (Or.inr hL)]
      · rw [SL.nextOf_setNext_ne _ _ _ _ _ _ (Or.inl hr2),
          SL.nextOf_setNext_ne _ _ _ _ _ _ (Or.inl hr1)]
    have hb : ((st.setNext (Ref.nd nn) t (st.nextOf p t)).setNext p t
        (some nn)).nextOf (Ref.nd nn) t = st.nextOf p t := by
      rw [SL.nextOf_setNext_ne _ _ _ _ _ _ (Or.inl (Ne.symm hpne))]
      exact SL.nextOf_setNext_nd st nn t (st.nextOf p t) hnn hts
    have hc : ((st.setNext (Ref.nd nn) t (st.nextOf p t)).setNext p t
        (some nn)).nextOf p t = some nn := by
      rcases hpc with hph | ⟨pp, hpp, hppn, hpph⟩
      · rw [hph]
        apply SL.nextOf_setNext_hd
        rw [SL.setNext_headNext_length, ihhn]
        omega
      · rw [hpp]
        refine SL.nextOf_setNext_nd _ _ _ _ ?_ ?_
        · rw [SL.setNext_nodes_length]; omega
        · rw [SL.setNext_heightAt, ihh pp]; omega
    rw [hstep]
    refine ⟨?_, ?_, ?_, ?_, ?_, ?_, ?_, ?_, ?_⟩
    · rw [SL.setNext_nodes_length, SL.setNext_nodes_length]; exact ihl
    · rw [SL.setNext_headNext_length, SL.setNext_headNext_length]
      exact ihhn
    · rw [SL.setNext_maxHeight, SL.setNext_maxHeight]; exact ihmh
    · intro m; rw [SL.setNext_keyI, SL.setNext_keyI]; exact ihk m
    · intro m; rw [SL.setNext_heightAt, SL.setNext_heightAt]; exact ihh m
    · intro r L hL
      rw [ha r L (Or.inl (by omega))]
      exact ih6 r L (by omega)
    · intro L hL
      by_cases hLt : L = t
      · subst hLt
        rw [← hp, hb]
        exact ih6 p L (le_refl _)
      · rw [ha (Ref.nd nn) L (Or.inl hLt)]
        exact ih7 L (by omega)
    · intro L hL
      by_cases hLt : L = t
      · subst hLt
        rw [← hp]
        exact hc
      · rw [ha (prev1.getD L Ref.hd) L (Or.inl hLt)]
        exact ih8 L (by omega)
    · intro r L hL hr1 hr2
      by_cases hLt : L = t
      · subst hLt
        rw [ha r L (Or.inr ⟨hr1, by rw [hp]; exact hr2⟩)]
        exact ih6 r L (le_refl _)
      · rw [ha r L (Or.inl hLt)]
        exact ih9 r L (by omega) hr1 hr2

/-- `Insert` of a fresh key preserves skip-list well-formedness. -/
theorem SL.insert_wf {α : Type} [LinearOrder α] [Inhabited α]
    (rv : Nat → Nat) (s : SL α) (K : α) (hwf : s.WF)
    (hK : ∀ i, i < s.nodes.length → s.keyI i ≠ K) :
    (s.insert rv K).WF := by
  have hwf' := hwf
  obtain ⟨h1, h2, h3, h4, h5, h6, h7, h8, h9⟩ := hwf'
  obtain ⟨hplen, hpok, _⟩ := SL.fge_spec s K hwf
  have hfold_eq : ∀ (s2' : SL α) (pr : List Ref) (nn' t : Nat),
      (List.range t).foldl (fun acc i => acc.linkStep pr nn' i) s2' =
        SL.linkAll s2' pr nn' t := fun _ _ _ _ => rfl
  rw [SL.insert_eq, hfold_eq]
  set n := s.nodes.length with hn
  set h := (randomHeight rv s.rpos).1 with hh
  have hhb := randomHeight_bounds rv s.rpos
  rw [← hh] at hhb
  obtain ⟨hh1, hh12⟩ := hhb
  set P0 := (s.fge K).2 with hP0
  set nodeN : SLNode α := { key := K, next := List.replicate h none }
    with hnodeN
  set s1 := if h > s.maxHeight then { s with maxHeight := h } else s with hs1
  set prev1 := if h > s.maxHeight then fillPrevHd P0 s.maxHeight h else P0
    with hprev1
  set s2 := { s1 with nodes := s.nodes ++ [nodeN], rpos := (randomHeight rv s.rpos).2 } with hs2
  have hs1nodes : s1.nodes = s.nodes := by
    rw [hs1]; by_cases hgt : h > s.maxHeight <;> simp [hgt]
  have hs1hn : s1.headNext = s.headNext := by
    rw [hs1]; by_cases hgt : h > s.maxHeight <;> simp [hgt]
  have hs1mh : s.maxHeight ≤ s1.maxHeight ∧ h ≤ s1.maxHeight ∧
      1 ≤ s1.maxHeight ∧ s1.maxHeight ≤ kMaxHeight := by
    rw [hs1]; by_cases hgt : h > s.maxHeight <;> simp [hgt] <;> omega
  have hs2nodes : s2.nodes = s.nodes ++ [nodeN] := by rw [hs2]
  have hs2hn : s2.headNext = s.headNext := by rw [hs2]; exact hs1hn
  have hs2mh : s2.maxHeight = s1.maxHeight := by rw [hs2]
  have hs2len : s2.nodes.length = n + 1 := by
    rw [hs2nodes]
    simp only [List.length_append, List.length_cons, List.length_nil]
  have hkey2 : ∀ m, m < n → s2.keyI m = s.keyI m := by
    intro m hm
    simp only [SL.keyI, List.get?_eq_getElem?]
    rw [List.getElem?_append_left (show m < s.nodes.length by omega)]
  have hkey2N : s2.keyI n = K := by
    simp only [SL.keyI, List.get?_eq_getElem?]
    rw [hn, List.getElem?_concat_length]
    simp [hnodeN]
  have hht2 : ∀ m, m < n → s2.heightAt m = s.heightAt m := by
    intro m hm
    simp only [SL.heightAt, List.get?_eq_getElem?]
    rw [List.getElem?_append_left (show m < s.nodes.length by omega)]
  have hht2N : s2.heightAt n = h := by
    simp only [SL.heightAt, List.get?_eq_getElem?]
    rw [hn, List.getElem?_concat_length]
    simp [hnodeN]
  have hnx2hd : ∀ L, s2.nextOf Ref.hd L = s.nextOf Ref.hd L := by
    intro L
    simp only [SL.nextOf]
    rw [hs1hn]
  have hnx2nd : ∀ m L, m < n →
      s2.nextOf (Ref.nd m) L = s.nextOf (Ref.nd m) L := by
    intro m L hm
    simp only [SL.nextOf, List.get?_eq_getElem?]
    rw [List.getElem?_append_left (show m < s.nodes.length by omega)]
  have hnx2N : ∀ L, s2.nextOf (Ref.nd n) L = none := by
    intro L
    simp only [SL.nextOf, List.get?_eq_getElem?]
    rw [hn, List.getElem?_concat_length]
    rcases Nat.lt_or_ge L h with hL | hL
    · simp [hnodeN, List.get?_eq_getElem?, List.getElem?_replicate, hL]
    · simp [hnodeN, List.get?_eq_getElem?, List.getElem?_replicate,
        Nat.not_lt.mpr hL]
  have hp1len : prev1.length = kMaxHeight := by
    rw [hprev1]
    by_cases hgt : h > s.maxHeight <;>
      simp [hgt, fillPrevHd_length, hplen]
  have hp1 : ∀ i, i < kMaxHeight → s.prevOK K i (prev1.getD i Ref.hd) := by
    intro i hi
    rw [hprev1]
    by_cases hgt : h > s.maxHeight
    · simp only [if_pos hgt]
      rw [fillPrevHd_getD P0 s.maxHeight h i (by omega)]
      by_cases hfill : s.maxHeight ≤ i ∧ i < h
      · rw [if_pos hfill]
        refine ⟨Or.inl rfl, ?_⟩
        rw [h3 i (by omega)]
        rfl
      · rw [if_neg hfill]
        exact hpok i hi
    · simp only [if_neg hgt]
      exact hpok i hi
  have hprevpos : ∀ i, i < h → prev1.getD i Ref.hd = Ref.hd ∨
      ∃ p, prev1.getD i Ref.hd = Ref.nd p ∧ p < n ∧ i < s2.heightAt p := by
    intro i hi
    obtain ⟨hpos, _⟩ := hp1 i (by omega)
    rcases hpos with hhd | ⟨p, hpp, hpn, _, hph⟩
    · exact Or.inl hhd
    · exact Or.inr ⟨p, hpp, hpn, by rw [hht2 p hpn]; omega⟩
  obtain ⟨fl, fhn, fmh, fk, fht, f6, f7, f8, f9⟩ :=
    SL.linkFold_spec s2 prev1 n h hs2len (by rw [hs2hn]; exact h1) hh12
      hht2N hprevpos h (le_refl h)
  set s3 := SL.linkAll s2 prev1 n h with hs3
  have gk : ∀ m, m < n → s3.keyI m = s.keyI m := fun m hm => by
    rw [fk m]; exact hkey2 m hm
  have gkN : s3.keyI n = K := by rw [fk n]; exact hkey2N
  have gh : ∀ m, m < n → s3.heightAt m = s.heightAt m := fun m hm => by
    rw [fht m]; exact hht2 m hm
  have ghN : s3.heightAt n = h := by rw [fht n]; exact hht2N
  have glen : s3.nodes.length = n + 1 := fl
  have ghn : s3.headNext.length = kMaxHeight := fhn
  have gmh : s3.maxHeight = s1.maxHeight := by rw [fmh]
  set y0 := prev1.getD 0 Ref.hd with hy0
  have hy0ok := hp1 0 (by decide)
  rw [← hy0] at hy0ok
  obtain ⟨hy0pos, hy0after⟩ := hy0ok
  have hr0 : s3.nextOf (Ref.nd n) 0 = s.nextOf y0 0 := by
    rw [f7 0 (by omega), ← hy0]
    rcases hy0pos with hhd | ⟨q, hq, hqn, _, _⟩
    · rw [hhd]; exact hnx2hd 0
    · rw [hq]; exact hnx2nd q 0 hqn
  have hy0n : s3.nextOf y0 0 = some n := by
    have hf := f8 0 (by omega)
    rw [← hy0] at hf
    exact hf
  have hother0 : ∀ r, r ≠ Ref.nd n → r ≠ y0 →
      (r = Ref.hd ∨ ∃ m, r = Ref.nd m ∧ m < n) →
      s3.nextOf r 0 = s.nextOf r 0 := by
    intro r hr1 hr2 hrv
    have hstep := f9 r 0 (by omega) hr1 (hy0 ▸ hr2)
    rw [hstep]
    rcases hrv with hhd | ⟨m, hm, hmn⟩
    · rw [hhd]; exact hnx2hd 0
    · rw [hm]; exact hnx2nd m 0 hmn
  obtain ⟨lo0, hzs0, hy0case⟩ :
      ∃ lo, s.zeroSucc lo (s.nextOf y0 0) ∧
        ((y0 = Ref.hd ∧ lo = none) ∨
          ∃ q, y0 = Ref.nd q ∧ q < n ∧ s.keyI q < K ∧
            lo = some (s.keyI q)) := by
    rcases hy0pos with hhd | ⟨q, hq, hqn, hqK, _⟩
    · exact ⟨none, by rw [hhd]; exact h8, Or.inl ⟨hhd, rfl⟩⟩
    · exact ⟨some (s.keyI q), by rw [hq]; exact h9 q hqn,
        Or.inr ⟨q, hq, hqn, hqK, rfl⟩⟩
  have hKle : ∀ j, s.nextOf y0 0 = some j → K ≤ s.keyI j := by
    intro j hj
    rw [hj] at hy0after
    simp only [SL.keyIsAfterNode, decide_eq_false_iff_not] at hy0after
    exact not_lt.mp hy0after
  have hlt2lo : ∀ m, m < n → K ≤ s.keyI m → gtLo lo0 (s.keyI m) := by
    intro m hm hKm
    rcases hy0case with ⟨_, hlo⟩ | ⟨q, _, _, hqK, hlo⟩
    · rw [hlo]; trivial
    · rw [hlo]
      simpa [gtLo] using lt_of_lt_of_le hqK hKm
  have hnogap : ∀ m, m < n → s.keyI m < K → ¬ gtLo lo0 (s.keyI m) := by
    intro m hm hmK hgt
    rcases hzs0 with ⟨_, hno⟩ | ⟨j0, hj0, hj0n, _, hj0min⟩
    · exact hno m hm hgt
    · have hKj0 := hKle j0 hj0
      have hle := hj0min m hm hgt
      exact absurd hmK (not_lt.mpr (le_trans hKj0 hle))
  have hdist : ∀ i j, i < n → j < n → i ≠ j → s.keyI i ≠ s.keyI j := by
    intro i j hi hj hij
    rcases Nat.lt_or_ge i j with hlt | hge
    · exact h7 i j hlt hj
    · have hlt : j < i := by omega
      exact fun he => (h7 j i hlt hi) he.symm
  unfold SL.WF
  refine ⟨ghn, ?_, ?_, ?_, ?_, ?_, ?_, ?_, ?_⟩
  · rw [gmh]
    omega
  · intro L hL
    rw [gmh] at hL
    have hLh : h ≤ L := by omega
    rw [f6 Ref.hd L hLh, hnx2hd L]
    exact h3 L (by omega)
  · intro i hi
    rw [glen] at hi
    rcases Nat.lt_or_ge i n with hin | hin
    · rw [gh i hin, gmh]
      obtain ⟨ha1, ha2⟩ := h4 i (by omega)
      exact ⟨ha1, by omega⟩
    · have hieq : i = n := by omega
      subst hieq
      rw [ghN, gmh]
      exact ⟨hh1, by omega⟩
  · intro L j hLj
    rcases Nat.lt_or_ge L h with hLh | hLh
    · by_cases hhdp : Ref.hd = prev1.getD L Ref.hd
      · have h8L := f8 L hLh
        rw [← hhdp] at h8L
        rw [h8L] at hLj
        injection hLj with hjeq
        subst hjeq
        refine ⟨by rw [glen]; omega, ?_⟩
        rw [ghN]
        omega
      · have hch := f9 Ref.hd L hLh (fun hcon => Ref.noConfusion hcon) hhdp
        rw [hch, hnx2hd L] at hLj
        obtain ⟨hj1, hj2⟩ := h5 L j hLj
        exact ⟨by rw [glen]; omega, by rw [gh j hj1]; exact hj2⟩
    · rw [f6 Ref.hd L hLh, hnx2hd L] at hLj
      obtain ⟨hj1, hj2⟩ := h5 L j hLj
      exact ⟨by rw [glen]; omega, by rw [gh j hj1]; exact hj2⟩
  · intro i L j hi hLj
    rw [glen] at hi
    rcases Nat.lt_or_ge i n with hin | hin
    · rcases Nat.lt_or_ge L h with hLh | hLh
      · by_cases hip : Ref.nd i = prev1.getD L Ref.hd
        · have h8L := f8 L hLh
          rw [← hip] at h8L
          rw [h8L] at hLj
          injection hLj with hjeq
          subst hjeq
          refine ⟨by rw [glen]; omega, by rw [ghN]; omega, ?_⟩
          rw [gk i hin, gkN]
          obtain ⟨hpos, _⟩ := hp1 L (by omega)
          rcases hpos with hhd | ⟨p, hpp, hpn, hpK, _⟩
          · rw [← hip] at hhd
            exact Ref.noConfusion hhd
          · rw [← hip] at hpp
            injection hpp with hpe
            rw [hpe]
            exact hpK
        · have hch := f9 (Ref.nd i) L hLh
            (fun hcon => by injection hcon with he; omega) hip
          rw [hch, hnx2nd i L hin] at hLj
          obtain ⟨hj1, hj2, hj3⟩ := h6 i L j hin hLj
          exact ⟨by rw [glen]; omega, by rw [gh j hj1]; exact hj2,
            by rw [gk i hin, gk j hj1]; exact hj3⟩
      · rw [f6 (Ref.nd i) L hLh, hnx2nd i L hin] at hLj
        obtain ⟨hj1, hj2, hj3⟩ := h6 i L j hin hLj
        exact ⟨by rw [glen]; omega, by rw [gh j hj1]; exact hj2,
          by rw [gk i hin, gk j hj1]; exact hj3⟩
    · have hieq : i = n := by omega
      subst hieq
      rcases Nat.lt_or_ge L h with hLh | hLh
      · obtain ⟨hpos, hafterL⟩ := hp1 L (by omega)
        have h7L : s3.nextOf (Ref.nd n) L =
            s.nextOf (prev1.getD L Ref.hd) L := by
          rw [f7 L hLh]
          rcases hpos with hhd | ⟨p, hpp, hpn, _, _⟩
          · rw [hhd]; exact hnx2hd L
          · rw [hpp]; exact hnx2nd p L hpn
        rw [h7L] at hLj
        have hjv : j < n ∧ L < s.heightAt j := by
          rcases hpos with hhd | ⟨p, hpp, hpn, _, _⟩
          · rw [hhd] at hLj
            exact h5 L j hLj
          · rw [hpp] at hLj
            obtain ⟨a, b, _⟩ := h6 p L j hpn hLj
            exact ⟨a, b⟩
        have hKj : K ≤ s.keyI j := by
          rw [hLj] at hafterL
          simp only [SL.keyIsAfterNode, decide_eq_false_iff_not] at hafterL
          exact not_lt.mp hafterL
        have hKj' : K < s.keyI j :=
          lt_of_le_of_ne hKj (fun he => hK j (by omega) he.symm)
        exact ⟨by rw [glen]; omega, by rw [gh j hjv.1]; exact hjv.2,
          by rw [gkN, gk j hjv.1]; exact hKj'⟩
      · rw [f6 (Ref.nd n) L hLh, hnx2N L] at hLj
        exact Option.noConfusion hLj
  · intro i j hij hj
    rw [glen] at hj
    rcases Nat.lt_or_ge j n with hjn | hjn
    · rw [gk i (by omega), gk j hjn]
      exact h7 i j hij hjn
    · have hjeq : j = n := by omega
      subst hjeq
      rw [gk i (by omega), gkN]
      exact hK i (by omega)
  · unfold SL.zeroSucc
    rcases hy0case with ⟨hy0hd, hlo⟩ | ⟨q, hy0q, hqn, hqK, hlo⟩
    · have hy0n' := hy0n
      rw [hy0hd] at hy0n'
      refine Or.inr ⟨n, hy0n', by rw [glen]; omega, trivial, ?_⟩
      intro m hm hgt
      rw [glen] at hm
      rcases Nat.lt_or_ge m n with hmn | hmn
      · rw [gkN, gk m hmn]
        by_contra hcon
        have hmK : s.keyI m < K := not_le.mp hcon
        exact hnogap m hmn hmK (by rw [hlo]; trivial)
      · have hmeq : m = n := by omega
        subst hmeq
        exact le_refl _
    · have hhdne2 : Ref.hd ≠ y0 := by
        rw [hy0q]
        intro hcon
        exact Ref.noConfusion hcon
      have hchg := hother0 Ref.hd (fun hcon => Ref.noConfusion hcon) hhdne2
        (Or.inl rfl)
      rw [hchg]
      rcases h8 with ⟨hnone8, hno8⟩ | ⟨j1, hj1, hj1n, _, hj1min⟩
      · exact absurd trivial (hno8 q hqn)
      · refine Or.inr ⟨j1, hj1, by rw [glen]; omega, trivial, ?_⟩
        intro m hm hgt
        rw [glen] at hm
        rcases Nat.lt_or_ge m n with hmn | hmn
        · rw [gk j1 hj1n, gk m hmn]
          exact hj1min m hmn trivial
        · have hmeq : m = n := by omega
          subst hmeq
          rw [gk j1 hj1n, gkN]
          exact le_trans (hj1min q hqn trivial) (le_of_lt hqK)
  · intro i hi
    rw [glen] at hi
    unfold SL.zeroSucc
    rcases Nat.lt_or_ge i n with hin | hin
    · by_cases hiy : Ref.nd i = y0
      · obtain ⟨q, hy0q, hqn, hqK, hlo⟩ :
            ∃ q, y0 = Ref.nd q ∧ q < n ∧ s.keyI q < K ∧
              lo0 = some (s.keyI q) := by
          rcases hy0case with ⟨hy0hd, _⟩ | hqpack
          · rw [hy0hd] at hiy
            exact absurd hiy (fun hcon => Ref.noConfusion hcon)
          · exact hqpack
        have hiq : i = q := by
          rw [hy0q] at hiy
          injection hiy with he
        have hlink : s3.nextOf (Ref.nd i) 0 = some n := by
          rw [hiy]
          exact hy0n
        refine Or.inr ⟨n, hlink, by rw [glen]; omega, ?_, ?_⟩
        · show s3.keyI i < s3.keyI n
          rw [gkN, gk i hin, hiq]
          exact hqK
        · intro m hm hgt
          rw [glen] at hm
          rcases Nat.lt_or_ge m n with hmn | hmn
          · rw [gkN, gk m hmn]
            by_contra hcon
            have hmK : s.keyI m < K := not_le.mp hcon
            have hgt2 : s3.keyI i < s3.keyI m := hgt
            rw [gk i hin, gk m hmn] at hgt2
            exact hnogap m hmn hmK (by rw [hlo, ← hiq]; exact hgt2)
          · have hmeq : m = n := by omega
            subst hmeq
            exact le_refl _
      · have hine : Ref.nd i ≠ Ref.nd n := by
          intro hcon
          injection hcon with he
          omega
        have hchg := hother0 (Ref.nd i) hine hiy (Or.inr ⟨i, rfl, hin⟩)
        rw [hchg]
        rcases h9 i hin with ⟨hnone9, hno9⟩ | ⟨j, hj, hjn, hjlo, hjmin⟩
        · refine Or.inl ⟨hnone9, ?_⟩
          intro m hm hgt
          rw [glen] at hm
          have hgt2 : s3.keyI i < s3.keyI m := hgt
          rcases Nat.lt_or_ge m n with hmn | hmn
          · rw [gk i hin, gk m hmn] at hgt2
            exact hno9 m hmn hgt2
          · have hmeq : m = n := by omega
            subst hmeq
            rw [gk i hin, gkN] at hgt2
            rcases hy0case with ⟨hy0hd, hlo⟩ | ⟨q, hy0q, hqn, hqK, hlo⟩
            · exact hnogap i hin hgt2 (by rw [hlo]; trivial)
            · have hiq : i ≠ q := by
                intro he
                apply hiy
                rw [hy0q, he]
              have hne := hdist i q hin hqn hiq
              rcases lt_or_gt_of_ne hne with hlt | hgt3
              · exact hno9 q hqn hlt
              · apply hnogap i hin hgt2
                rw [hlo]
                exact hgt3
        · refine Or.inr ⟨j, hj, by rw [glen]; omega, ?_, ?_⟩
          · show s3.keyI i < s3.keyI j
            rw [gk i hin, gk j hjn]
            exact hjlo
          · intro m hm hgt
            rw [glen] at hm
            have hgt2 : s3.keyI i < s3.keyI m := hgt
            rcases Nat.lt_or_ge m n with hmn | hmn
            · rw [gk i hin, gk m hmn] at hgt2
              have hle := hjmin m hmn hgt2
              rw [gk j hjn, gk m hmn]
              exact hle
            · have hmeq : m = n := by omega
              subst hmeq
              rw [gk i hin, gkN] at hgt2
              rw [gk j hjn, gkN]
              by_contra hcon
              have hKj : K < s.keyI j := not_le.mp hcon
              rcases hy0case with ⟨hy0hd, hlo⟩ | ⟨q, hy0q, hqn, hqK, hlo⟩
              · exact hnogap i hin hgt2 (by rw [hlo]; trivial)
              · have hiq : i ≠ q := by
                  intro he
                  apply hiy
                  rw [hy0q, he]
                have hne := hdist i q hin hqn hiq
                rcases lt_or_gt_of_ne hne with hlt | hgt3
                · have hjq := hjmin q hqn hlt
                  exact absurd (lt_of_le_of_lt hjq hqK)
                    (not_lt.mpr (le_of_lt hKj))
                · apply hnogap i hin hgt2
                  rw [hlo]
                  exact hgt3
    · have hieq : i = n := by omega
      subst hieq
      rw [hr0, gkN]
      rcases hzs0 with ⟨hnone0, hno0⟩ | ⟨j, hj, hjn, hjlo, hjmin⟩
      · refine Or.inl ⟨hnone0, ?_⟩
        intro m hm hgt
        rw [glen] at hm
        have hgt2 : K < s3.keyI m := hgt
        rcases Nat.lt_or_ge m n with hmn | hmn
        · rw [gk m hmn] at hgt2
          exact hno0 m hmn (hlt2lo m hmn (le_of_lt hgt2))
        · have hmeq : m = n := by omega
          subst hmeq
          rw [gkN] at hgt2
          exact absurd hgt2 (lt_irrefl K)
      · refine Or.inr ⟨j, hj, by rw [glen]; omega, ?_, ?_⟩
        · show (K : α) < s3.keyI j
          rw [gk j hjn]
          exact lt_of_le_of_ne (hKle j hj) (fun he => hK j hjn he.symm)
        · intro m hm hgt
          rw [glen] at hm
          have hgt2 : K < s3.keyI m := hgt
          rcases Nat.lt_or_ge m n with hmn | hmn
          · rw [gk m hmn] at hgt2
            have hle := hjmin m hmn (hlt2lo m hmn (le_of_lt hgt2))
            rw [gk j hjn, gk m hmn]
            exact hle
          · have hmeq : m = n := by omega
            subst hmeq
            rw [gkN] at hgt2
            exact absurd hgt2 (lt_irrefl K)

/-- All head links of a fresh skip list are null. -/
theorem SL.empty_nextOf_hd (α : Type) [Inhabited α] :
    ∀ L, (SL.empty α).nextOf Ref.hd L = none := by
  intro L
  simp only [SL.empty, SL.nextOf, List.get?_eq_getElem?,
    List.getElem?_replicate]
  rcases Nat.lt_or_ge L kMaxHeight with hL | hL
  · simp [hL]
  · simp [Nat.not_lt.mpr hL]

/-- The fresh skip list is well-formed. -/
theorem SL.empty_wf (α : Type) [LinearOrder α] [Inhabited α] :
    (SL.empty α).WF := by
  have hhd := SL.empty_nextOf_hd α
  unfold SL.WF
  refine ⟨by simp [SL.empty], ⟨by simp [SL.empty], by simp [SL.empty, kMaxHeight]⟩,
    fun L _ => hhd L, ?_, ?_, ?_, ?_, ?_, ?_⟩
  · intro i hi
    simp [SL.empty] at hi
  · intro L j hLj
    rw [hhd L] at hLj
    exact Option.noConfusion hLj
  · intro i L j hi _
    simp [SL.empty] at hi
  · intro i j hij hj
    simp [SL.empty] at hj
  · unfold SL.zeroSucc
    refine Or.inl ⟨hhd 0, ?_⟩
    intro m hm
    simp [SL.empty] at hm
  · intro i hi
    simp [SL.empty] at hi

/-- Folding `Insert` over distinct keys keeps the list well-formed and
accumulates exactly those keys. -/
theorem SL.build_paux {α : Type} [LinearOrder α] [Inhabited α]
    (rv : Nat → Nat) :
    ∀ (ks : List α) (s : SL α) (done : List α),
    s.WF → s.nodes.map SLNode.key = done → (done ++ ks).Nodup →
    (ks.foldl (fun s k => s.insert rv k) s).WF ∧
    (ks.foldl (fun s k => s.insert rv k) s).nodes.map SLNode.key =
      done ++ ks := by
  intro ks
  induction ks with
  | nil =>
    intro s done hwf hdone hnd
    simpa using ⟨hwf, hdone⟩
  | cons k ks ih =>
    intro s done hwf hdone hnd
    rw [List.foldl_cons]
    have hkdone : k ∉ done := by
      rw [List.nodup_append] at hnd
      intro hmem
      exact hnd.2.2 hmem (List.mem_cons_self k ks)
    have hK : ∀ i, i < s.nodes.length → s.keyI i ≠ k := by
      intro i hi heq
      apply hkdone
      rw [← hdone]
      exact (SL.keyI_mem_iff s k).mp ⟨i, hi, heq⟩
    have hwf' := SL.insert_wf rv s k hwf hK
    have hkeys' := SL.insert_keys rv s k
    have hres := ih (s.insert rv k) (done ++ [k]) hwf'
      (by rw [hkeys', hdone])
      (by rw [List.append_assoc, List.singleton_append]; exact hnd)
    obtain ⟨hwfres, hmapres⟩ := hres
    refine ⟨hwfres, ?_⟩
    rw [hmapres, List.append_assoc, List.singleton_append]

/-- Building from a duplicate-free key list gives a well-formed skip list
holding exactly those keys. -/
theorem SL.build_wf_keys {α : Type} [LinearOrder α] [Inhabited α]
    (rv : Nat → Nat) (ks : List α) (hnd : ks.Nodup) :
    (SL.build rv ks).WF ∧ (SL.build rv ks).nodes.map SLNode.key = ks := by
  have hres := SL.build_paux rv ks (SL.empty α) [] (SL.empty_wf α) rfl
    (by simpa using hnd)
  simpa [SL.build] using hres

/-- C1: after a finite sequence of `Insert` calls with pairwise distinct
keys on a fresh skip list, `Contains(K)` returns true for every inserted
key `K` and false for every key not inserted, for every pseudo-random
stream and every total-order key type. -/
theorem skiplist_contains_iff_inserted {α : Type} [LinearOrder α]
    [Inhabited α] (rv : Nat → Nat) (ks : List α) (hnd : ks.Nodup) (K : α) :
    (SL.build rv ks).contains K = true ↔ K ∈ ks := by
  obtain ⟨hwf, hkeys⟩ := SL.build_wf_keys rv ks hnd
  rw [SL.contains_iff _ _ hwf, SL.keyI_mem_iff, hkeys]

/-- C1 witness: insert 3, 1, 4 (distinct) with the stream that always
draws 1 and query 2; the theorem applies at these concrete inputs. -/
theorem skiplist_contains_iff_inserted_witness :
    ([3, 1, 4] : List Nat).Nodup ∧
      ((SL.build (fun _ => 1) [3, 1, 4]).contains 2 = true ↔
        (2 : Nat) ∈ [3, 1, 4]) :=
  ⟨by decide, skiplist_contains_iff_inserted (fun _ => 1) [3, 1, 4]
    (by decide) 2⟩

end LevelDB
